import Mathlib

/-!
# vulcanDB — verification of the dependency-ordered schema pipeline and loader

Shallow embedding of the core of the `vulcanDB` repository:

* `src/vulcan/parsers/graph.py` — `get_table_creation_order` (Kahn's algorithm
  over a dict `graph : table -> list of children`, FIFO queue seeded in dict
  key order);
* `src/vulcan/parsers/dependency.py` — `determine_table_creation_order`
  (traits-driven variant: universe check, deduplicated adjacency sets,
  lexicographically sorted children, queue seeded by set iteration);
* `src/vulcan/database/core.py` — `execute_queries` (single-transaction DDL);
* `src/vulcan/database/load.py` — `push_data_in_db` (per-row transactional
  lookup-or-insert loader with retry/cleaning) and `clean_row_data`.

Python dicts are modelled as insertion-ordered association lists
(`List (String × α)`, first binding wins, which coincides with dict behaviour
on duplicate-free key lists).  Python exceptions are modelled with `Except`.
-/

namespace VulcanDB

/-- Association-list lookup; first binding wins (Python `d[k]` / `d.get(k)`). -/
def lookupA {α : Type} : List (String × α) → String → Option α
  | [], _ => none
  | (k', v) :: rest, k => if k' = k then some v else lookupA rest k

/-- Python `m[key] -= 1`; a no-op when the key is absent (the Python code only
reaches this with keys present, enforced by `Closed` below in all theorems). -/
def decrKey : List (String × Int) → String → List (String × Int)
  | [], _ => []
  | (k, v) :: rest, key =>
    if k = key then (k, v - 1) :: rest else (k, v) :: decrKey rest key

/-- Python `m[key] += 1`; a no-op when the key is absent. -/
def incrKey : List (String × Int) → String → List (String × Int)
  | [], _ => []
  | (k, v) :: rest, key =>
    if k = key then (k, v + 1) :: rest else (k, v) :: incrKey rest key

/-- Number of bindings holding a positive value (termination measure fuel). -/
def posCount (m : List (String × Int)) : Nat :=
  m.countP (fun p => decide (0 < p.2))

@[simp] theorem lookupA_nil {α : Type} (k : String) : lookupA ([] : List (String × α)) k = none := rfl

theorem lookupA_cons {α : Type} (k' : String) (v : α) (rest : List (String × α)) (k : String) :
    lookupA ((k', v) :: rest) k = if k' = k then some v else lookupA rest k := rfl

theorem keys_decrKey (m : List (String × Int)) (k : String) :
    (decrKey m k).map Prod.fst = m.map Prod.fst := by
  induction m with
  | nil => rfl
  | cons p rest ih =>
    obtain ⟨k', v⟩ := p
    by_cases h : k' = k <;> simp [decrKey, h, ih]

theorem keys_incrKey (m : List (String × Int)) (k : String) :
    (incrKey m k).map Prod.fst = m.map Prod.fst := by
  induction m with
  | nil => rfl
  | cons p rest ih =>
    obtain ⟨k', v⟩ := p
    by_cases h : k' = k <;> simp [incrKey, h, ih]

theorem lookupA_decrKey_self (m : List (String × Int)) (k : String) :
    lookupA (decrKey m k) k = (lookupA m k).map (· - 1) := by
  induction m with
  | nil => rfl
  | cons p rest ih =>
    obtain ⟨k', v⟩ := p
    by_cases h : k' = k <;> simp [decrKey, lookupA_cons, h, ih]

theorem lookupA_decrKey_other (m : List (String × Int)) (k k' : String) (hne : k ≠ k') :
    lookupA (decrKey m k) k' = lookupA m k' := by
  induction m with
  | nil => rfl
  | cons p rest ih =>
    obtain ⟨k₀, v⟩ := p
    by_cases h : k₀ = k
    · subst h
      simp [decrKey, lookupA_cons, hne]
    · simp [decrKey, lookupA_cons, h, ih]

theorem lookupA_incrKey_self (m : List (String × Int)) (k : String) :
    lookupA (incrKey m k) k = (lookupA m k).map (· + 1) := by
  induction m with
  | nil => rfl
  | cons p rest ih =>
    obtain ⟨k', v⟩ := p
    by_cases h : k' = k <;> simp [incrKey, lookupA_cons, h, ih]

theorem lookupA_incrKey_other (m : List (String × Int)) (k k' : String) (hne : k ≠ k') :
    lookupA (incrKey m k) k' = lookupA m k' := by
  induction m with
  | nil => rfl
  | cons p rest ih =>
    obtain ⟨k₀, v⟩ := p
    by_cases h : k₀ = k
    · subst h
      simp [incrKey, lookupA_cons, hne]
    · simp [incrKey, lookupA_cons, h, ih]

theorem posCount_decrKey_le (m : List (String × Int)) (k : String) :
    posCount (decrKey m k) ≤ posCount m := by
  induction m with
  | nil => simp [decrKey]
  | cons p rest ih =>
    obtain ⟨k', v⟩ := p
    by_cases h : k' = k
    · subst h
      have e : decrKey ((k', v) :: rest) k' = (k', v - 1) :: rest := by
        simp [decrKey]
      rw [e]
      simp only [posCount, List.countP_cons]
      have h1 : (if (decide (0 < v - 1) : Bool) = true then 1 else 0) ≤
        (if (decide (0 < v) : Bool) = true then 1 else 0) := by
        by_cases hv : 0 < v - 1
        · have hv2 : 0 < v := by omega
          simp [hv, hv2]
        · simp [hv]
      omega
    · simp only [decrKey, if_neg h, posCount, List.countP_cons]
      have h2 := ih
      simp only [posCount] at h2
      omega

theorem posCount_decrKey_lt (m : List (String × Int)) (k : String)
    (h : lookupA (decrKey m k) k = some 0) :
    posCount (decrKey m k) < posCount m := by
  induction m with
  | nil => simp [decrKey, lookupA] at h
  | cons p rest ih =>
    obtain ⟨k', v⟩ := p
    by_cases hk : k' = k
    · subst hk
      have e : decrKey ((k', v) :: rest) k' = (k', v - 1) :: rest := by
        simp [decrKey]
      rw [e] at h ⊢
      simp only [lookupA_cons, if_true, eq_self_iff_true, Option.some.injEq] at h
      have hv : v = 1 := by omega
      subst hv
      simp only [posCount, List.countP_cons]
      norm_num
    · have e : decrKey ((k', v) :: rest) k = (k', v) :: decrKey rest k := by
        simp [decrKey, hk]
      rw [e] at h ⊢
      simp only [lookupA_cons, if_neg hk] at h
      have h2 := ih h
      simp only [posCount, List.countP_cons]
      simp only [posCount] at h2
      omega

/-- The body of graph.py's inner loop: for each `neighbor` in the popped
vertex's child list, `in_degree[neighbor] -= 1` and, when the in-degree hits
exactly zero, append the neighbor to the FIFO queue. -/
def processChildren (indeg : List (String × Int)) (queue : List String) :
    List String → List (String × Int) × List String
  | [] => (indeg, queue)
  | nb :: rest =>
    let indeg' := decrKey indeg nb
    let queue' := if lookupA indeg' nb = some 0 then queue ++ [nb] else queue
    processChildren indeg' queue' rest

theorem processChildren_measure (cs : List String) :
    ∀ (indeg : List (String × Int)) (queue : List String),
      (processChildren indeg queue cs).2.length + posCount (processChildren indeg queue cs).1 ≤
        queue.length + posCount indeg := by
  induction cs with
  | nil => intro indeg queue; simp [processChildren]
  | cons nb rest ih =>
    intro indeg queue
    by_cases h : lookupA (decrKey indeg nb) nb = some 0
    · have h1 := posCount_decrKey_lt indeg nb h
      have h2 := ih (decrKey indeg nb) (queue ++ [nb])
      have e : processChildren indeg queue (nb :: rest)
          = processChildren (decrKey indeg nb) (queue ++ [nb]) rest := by
        simp [processChildren, h]
      rw [e]
      simp only [List.length_append, List.length_cons, List.length_nil] at h2
      omega
    · have h1 := posCount_decrKey_le indeg nb
      have h2 := ih (decrKey indeg nb) queue
      have e : processChildren indeg queue (nb :: rest)
          = processChildren (decrKey indeg nb) queue rest := by
        simp [processChildren, h]
      rw [e]
      omega

/-- Kahn's-algorithm loop from `get_table_creation_order` (graph.py:33-40):
pop the queue front, append it to the order, decrement children. -/
def kahnLoop (g : List (String × List String)) (indeg : List (String × Int))
    (queue : List String) (order : List String) : List String :=
  match queue with
  | [] => order
  | v :: qs =>
    let p := processChildren indeg qs ((lookupA g v).getD [])
    kahnLoop g p.1 p.2 (order ++ [v])
termination_by queue.length + posCount indeg
decreasing_by
  simp_wf
  have h := processChildren_measure ((lookupA g nb).getD []) indeg rest
  omega

/-- graph.py:22-26 — `in_degree = {u: 0 for u in graph}` followed by
`for u in graph: for v in graph[u]: in_degree[v] += 1`. -/
def initIndeg (g : List (String × List String)) : List (String × Int) :=
  g.foldl (fun m p => p.2.foldl incrKey m) (g.map (fun p => (p.1, (0 : Int))))

/-- graph.py:28 — the queue of zero in-degree vertices, in dict key order. -/
def kahnSeed (g : List (String × List String)) : List String :=
  ((initIndeg g).filter (fun p => decide (p.2 = 0))).map Prod.fst

/-- The order list produced by the while-loop of graph.py:33-40. -/
def kahnOut (g : List (String × List String)) : List String :=
  kahnLoop g (initIndeg g) (kahnSeed g) []

/-- graph.py `get_table_creation_order(graph)`.  The dict is modelled as an
insertion-ordered association list; the queue is seeded with the zero
in-degree keys in dict order, and a cycle raises the fixed message
(graph.py:42-45). -/
def get_table_creation_order (g : List (String × List String)) :
    Except String (List String) :=
  if (kahnOut g).length = (initIndeg g).length then .ok (kahnOut g)
  else .error "Graph has at least one cycle, topological sort not possible."

/-- Keys (node set, in insertion order) of a graph mapping. -/
def keysOf (g : List (String × List String)) : List String := g.map Prod.fst

/-- `Edge g u v`: the dependency graph has an edge `u → v` (parent before
child), i.e. `v` occurs in `graph[u]`. -/
def Edge (g : List (String × List String)) (u v : String) : Prop :=
  ∃ cs, lookupA g u = some cs ∧ v ∈ cs

/-- Every child named in the graph is itself a node (graph.py would otherwise
raise a `KeyError`; `create_query_dependent_graph` guarantees this). -/
def Closed (g : List (String × List String)) : Prop :=
  ∀ p ∈ g, ∀ v ∈ p.2, v ∈ keysOf g

/-- Acyclicity: no nonempty edge path from a node to itself. -/
def Acyclic (g : List (String × List String)) : Prop :=
  ∀ v, ¬ Relation.TransGen (Edge g) v v

/-- Remaining in-degree of `v` once the nodes in `dead` have been popped:
the number of edges into `v` whose source has not been processed yet. -/
def remIndeg (g : List (String × List String)) (dead : List String) (v : String) : Nat :=
  (g.map (fun p => if p.1 ∈ dead then 0 else p.2.count v)).sum

theorem lookupA_mem {α : Type} {g : List (String × α)} {u : String} {cs : α}
    (h : lookupA g u = some cs) : (u, cs) ∈ g := by
  induction g with
  | nil => simp [lookupA] at h
  | cons p rest ih =>
    obtain ⟨k, v⟩ := p
    rw [lookupA_cons] at h
    by_cases hk : k = u
    · subst hk
      simp only [if_true, eq_self_iff_true, Option.some.injEq] at h
      subst h
      exact List.mem_cons_self _ _
    · rw [if_neg hk] at h
      exact List.mem_cons_of_mem _ (ih h)

theorem mem_keys_lookupA {α : Type} {g : List (String × α)} {u : String}
    (h : u ∈ g.map Prod.fst) : ∃ cs, lookupA g u = some cs := by
  induction g with
  | nil => simp at h
  | cons p rest ih =>
    obtain ⟨k, v⟩ := p
    by_cases hk : k = u
    · exact ⟨v, by simp [lookupA_cons, hk]⟩
    · simp only [List.map_cons, List.mem_cons] at h
      rcases h with h | h

      · exact absurd h.symm hk
      · obtain ⟨cs, hcs⟩ := ih h
        exact ⟨cs, by simp [lookupA_cons, hk, hcs]⟩

/-- Full specification of one pass of graph.py's inner loop: starting from an
in-degree table holding `m k + (count of k among the children cs)`, it ends
holding `m k`, and it appends to the queue exactly the children whose
in-degree reached zero. -/
theorem count_cons_le (c x : String) (rest : List String) :
    rest.count x ≤ (c :: rest).count x := by
  simp only [List.count_cons]
  omega

theorem count_cons_self_pos (c : String) (rest : List String) :
    0 < (c :: rest).count c := by
  simp [List.count_cons]

theorem processChildren_spec :
    ∀ (cs : List String) (indeg : List (String × Int)) (queue : List String) (m : String → Nat),
      (∀ c ∈ cs, c ∈ indeg.map Prod.fst) →
      (∀ k ∈ indeg.map Prod.fst, lookupA indeg k = some ((m k : Int) + (cs.count k : Int))) →
      (∀ x ∈ queue, m x = 0 ∧ cs.count x = 0) →
      (processChildren indeg queue cs).1.map Prod.fst = indeg.map Prod.fst ∧
      (∀ k ∈ indeg.map Prod.fst, lookupA (processChildren indeg queue cs).1 k = some ((m k : Int))) ∧
      ∃ new, (processChildren indeg queue cs).2 = queue ++ new ∧ new.Nodup ∧
        (∀ x, x ∈ new ↔ (0 < cs.count x ∧ m x = 0)) := by
  intro cs
  induction cs with
  | nil =>
    intro indeg queue m _ h1 _
    refine ⟨rfl, ?_, ⟨[], by simp [processChildren], by simp, by simp⟩⟩
    intro k hk
    have := h1 k hk
    simpa using this
  | cons c rest ih =>
    intro indeg queue m hkeys h1 hq
    have hc : c ∈ indeg.map Prod.fst := hkeys c (List.mem_cons_self _ _)
    -- the in-degree table after the decrement for child `c`
    have hkeys' : (decrKey indeg c).map Prod.fst = indeg.map Prod.fst := keys_decrKey indeg c
    have h1' : ∀ k ∈ indeg.map Prod.fst,
        lookupA (decrKey indeg c) k = some ((m k : Int) + (rest.count k : Int)) := by
      intro k hk
      by_cases hkc : c = k
      · subst hkc
        rw [lookupA_decrKey_self, h1 c hk]
        have hcc : (c :: rest).count c = rest.count c + 1 := by
          simp [List.count_cons]
        rw [hcc]
        simp only [Option.map_some']
        congr 1
        push_cast
        ring
      · rw [lookupA_decrKey_other indeg c k hkc, h1 k hk]
        have hkc' : ¬k = c := fun h => hkc h.symm
        have hcc : (c :: rest).count k = rest.count k := by
          simp [List.count_cons, hkc']
        rw [hcc]
    -- the enqueue test
    by_cases henq : lookupA (decrKey indeg c) c = some 0
    · -- `c` reached in-degree 0 and is appended to the queue
      have hc0 : m c = 0 ∧ rest.count c = 0 := by
        have hl := h1' c hc
        rw [henq] at hl
        injection hl with hl
        constructor <;> omega
      have e : processChildren indeg queue (c :: rest)
          = processChildren (decrKey indeg c) (queue ++ [c]) rest := by
        simp [processChildren, henq]
      rw [e]
      have hq' : ∀ x ∈ queue ++ [c], m x = 0 ∧ rest.count x = 0 := by
        intro x hx
        rcases List.mem_append.mp hx with hx | hx
        · obtain ⟨hm, hcnt⟩ := hq x hx
          have := count_cons_le c x rest
          exact ⟨hm, by omega⟩
        · simp only [List.mem_singleton] at hx
          subst hx
          exact hc0
      have hkeys'' : ∀ x ∈ rest, x ∈ (decrKey indeg c).map Prod.fst := by
        intro x hx
        rw [hkeys']
        exact hkeys x (List.mem_cons_of_mem _ hx)
      obtain ⟨ck, cl, new', hnew'eq, hnew'nd, hnew'mem⟩ :=
        ih (decrKey indeg c) (queue ++ [c]) m hkeys''
          (by rw [hkeys']; exact h1') hq'
      refine ⟨by rw [ck, hkeys'], by rw [hkeys'] at cl; exact cl, ⟨c :: new', ?_, ?_, ?_⟩⟩
      · rw [hnew'eq, List.append_assoc]
        rfl
      · refine List.nodup_cons.mpr ⟨?_, hnew'nd⟩
        intro hcmem
        have := (hnew'mem c).mp hcmem
        omega
      · intro x
        rw [List.mem_cons, hnew'mem x]
        constructor
        · rintro (hxc | ⟨hcnt, hm⟩)
          · subst hxc
            exact ⟨count_cons_self_pos x rest, hc0.1⟩
          · have := count_cons_le c x rest
            exact ⟨by omega, hm⟩
        · rintro ⟨hcnt, hm⟩
          by_cases hrc : 0 < rest.count x
          · exact Or.inr ⟨hrc, hm⟩
          · left
            have hr0 : rest.count x = 0 := by omega
            by_cases hxc : x = c
            · exact hxc
            · exfalso
              have hcc : (c :: rest).count x = rest.count x := by
                simp [List.count_cons, hxc]
              omega
    · -- in-degree of `c` still positive: queue unchanged
      have e : processChildren indeg queue (c :: rest)
          = processChildren (decrKey indeg c) queue rest := by
        simp [processChildren, henq]
      rw [e]
      have hcpos : ¬(m c = 0 ∧ rest.count c = 0) := by
        intro ⟨hm, hcnt⟩
        apply henq
        rw [h1' c hc, hm, hcnt]
        simp
      have hq' : ∀ x ∈ queue, m x = 0 ∧ rest.count x = 0 := by
        intro x hx
        obtain ⟨hm, hcnt⟩ := hq x hx
        have := count_cons_le c x rest
        exact ⟨hm, by omega⟩
      have hkeys'' : ∀ x ∈ rest, x ∈ (decrKey indeg c).map Prod.fst := by
        intro x hx
        rw [hkeys']
        exact hkeys x (List.mem_cons_of_mem _ hx)
      obtain ⟨ck, cl, new', hnew'eq, hnew'nd, hnew'mem⟩ :=
        ih (decrKey indeg c) queue m hkeys'' (by rw [hkeys']; exact h1') hq'
      refine ⟨by rw [ck, hkeys'], by rw [hkeys'] at cl; exact cl, ⟨new', hnew'eq, hnew'nd, ?_⟩⟩
      intro x
      rw [hnew'mem x]
      constructor
      · rintro ⟨hcnt, hm⟩
        have := count_cons_le c x rest
        exact ⟨by omega, hm⟩
      · rintro ⟨hcnt, hm⟩
        by_cases hrc : 0 < rest.count x
        · exact ⟨hrc, hm⟩
        · exfalso
          have hr0 : rest.count x = 0 := by omega
          by_cases hxc : x = c
          · subst hxc
            exact hcpos ⟨hm, hr0⟩
          · have hcc : (c :: rest).count x = rest.count x := by
              simp [List.count_cons, hxc]
            omega

theorem remIndeg_nil_dead (g : List (String × List String)) (v : String) :
    remIndeg g [] v = (g.map (fun p => p.2.count v)).sum := by
  simp [remIndeg]

theorem remIndeg_dead_irrelevant (g : List (String × List String)) (dead : List String)
    (v k : String) (h : ∀ p ∈ g, p.1 ≠ v) :
    remIndeg g (dead ++ [v]) k = remIndeg g dead k := by
  induction g with
  | nil => rfl
  | cons p rest ih =>
    have hp : p.1 ≠ v := h p (List.mem_cons_self _ _)
    have hmem : p.1 ∈ dead ++ [v] ↔ p.1 ∈ dead := by
      simp [List.mem_append, hp]
    simp only [remIndeg, List.map_cons, List.sum_cons] at *
    rw [ih (fun q hq => h q (List.mem_cons_of_mem _ hq))]
    by_cases hd : p.1 ∈ dead
    · simp [hd, hmem.mpr hd]
    · have : p.1 ∉ dead ++ [v] := fun hc => hd (hmem.mp hc)
      simp [hd, this]

theorem remIndeg_snoc (g : List (String × List String)) (hN : (keysOf g).Nodup)
    (v : String) (cs : List String) (hv : lookupA g v = some cs)
    (dead : List String) (hvd : v ∉ dead) (k : String) :
    remIndeg g dead k = remIndeg g (dead ++ [v]) k + cs.count k := by
  induction g with
  | nil => simp [lookupA] at hv
  | cons p rest ih =>
    obtain ⟨u, us⟩ := p
    simp only [keysOf, List.map_cons, List.nodup_cons] at hN
    by_cases huv : u = v
    · subst huv
      rw [lookupA_cons, if_pos rfl] at hv
      injection hv with hv
      subst hv
      have hrest : ∀ p ∈ rest, p.1 ≠ u := by
        intro p hp hc
        exact hN.1 (hc ▸ List.mem_map_of_mem Prod.fst hp)
      simp only [remIndeg, List.map_cons, List.sum_cons]
      have hdead2 : u ∈ dead ++ [u] := by simp
      rw [if_neg hvd, if_pos hdead2]
      have := remIndeg_dead_irrelevant rest dead u k hrest
      simp only [remIndeg] at this
      omega
    · rw [lookupA_cons, if_neg huv] at hv
      have hmem : u ∈ dead ++ [v] ↔ u ∈ dead := by
        simp [List.mem_append, huv]
      have ihr := ih hN.2 hv
      simp only [remIndeg, List.map_cons, List.sum_cons] at *
      by_cases hd : u ∈ dead
      · rw [if_pos hd, if_pos (hmem.mpr hd)]
        omega
      · rw [if_neg hd, if_neg (fun hc => hd (hmem.mp hc))]
        omega

theorem remIndeg_pos_of_edge (g : List (String × List String)) (hN : (keysOf g).Nodup)
    (u : String) (cs : List String) (y : String) (dead : List String)
    (hu : lookupA g u = some cs) (hy : y ∈ cs) (hud : u ∉ dead) :
    0 < remIndeg g dead y := by
  have h := remIndeg_snoc g hN u cs hu dead hud y
  have hc : 0 < cs.count y := List.count_pos_iff.mpr hy
  omega

theorem remIndeg_ge_count (g : List (String × List String)) (hN : (keysOf g).Nodup)
    (v : String) (cs : List String) (hv : lookupA g v = some cs)
    (dead : List String) (hvd : v ∉ dead) (k : String) :
    cs.count k ≤ remIndeg g dead k := by
  have h := remIndeg_snoc g hN v cs hv dead hvd k
  omega

/-- A positive remaining in-degree of `y` is witnessed by an unprocessed
parent with an edge into `y`. -/
theorem exists_edge_of_remIndeg_pos (g : List (String × List String))
    (hN : (keysOf g).Nodup) (dead : List String) (y : String)
    (h : 0 < remIndeg g dead y) :
    ∃ u, u ∉ dead ∧ u ∈ keysOf g ∧ Edge g u y := by
  induction g with
  | nil => simp [remIndeg] at h
  | cons p rest ih =>
    obtain ⟨u, us⟩ := p
    simp only [keysOf, List.map_cons, List.nodup_cons] at hN
    simp only [remIndeg, List.map_cons, List.sum_cons] at h
    by_cases hd : u ∈ dead
    · rw [if_pos hd] at h
      simp only [Nat.zero_add] at h
      obtain ⟨w, hw1, hw2, hw3⟩ := ih hN.2 (by simpa [remIndeg] using h)
      refine ⟨w, hw1, ?_, ?_⟩
      · simp only [keysOf, List.map_cons, List.mem_cons]
        exact Or.inr hw2
      obtain ⟨cs, hcs1, hcs2⟩ := hw3
      refine ⟨cs, ?_, hcs2⟩
      rw [lookupA_cons]
      have : u ≠ w := by
        intro hc
        subst hc
        exact hN.1 (by simpa [keysOf] using hw2)
      rw [if_neg this]
      exact hcs1
    · rw [if_neg hd] at h
      by_cases hcy : 0 < us.count y
      · refine ⟨u, hd, by simp [keysOf], us, ?_, List.count_pos_iff.mp hcy⟩
        rw [lookupA_cons, if_pos rfl]
      · have h' : 0 < remIndeg rest dead y := by
          simp only [remIndeg]
          omega
        obtain ⟨w, hw1, hw2, hw3⟩ := ih hN.2 h'
        refine ⟨w, hw1, ?_, ?_⟩
        · simp only [keysOf, List.map_cons, List.mem_cons]
          exact Or.inr hw2
        obtain ⟨cs, hcs1, hcs2⟩ := hw3
        refine ⟨cs, ?_, hcs2⟩
        rw [lookupA_cons]
        have : u ≠ w := by
          intro hc
          subst hc
          exact hN.1 (by simpa [keysOf] using hw2)
        rw [if_neg this]
        exact hcs1

theorem lookupA_foldl_incrKey (cs : List String) :
    ∀ (m : List (String × Int)) (k : String),
      lookupA (cs.foldl incrKey m) k = (lookupA m k).map (· + (cs.count k : Int)) := by
  induction cs with
  | nil =>
    intro m k
    simp
  | cons c rest ih =>
    intro m k
    have e : (c :: rest).foldl incrKey m = rest.foldl incrKey (incrKey m c) := rfl
    rw [e, ih]
    by_cases hck : c = k
    · subst hck
      rw [lookupA_incrKey_self, Option.map_map]
      have hcc : (c :: rest).count c = rest.count c + 1 := by
        simp [List.count_cons]
      rw [hcc]
      cases lookupA m c with
      | none => simp
      | some x =>
        simp only [Option.map_some', Function.comp]
        congr 1
        push_cast
        ring
    · rw [lookupA_incrKey_other m c k hck]
      have hcc : (c :: rest).count k = rest.count k := by
        have hkc' : ¬(c == k) = true := by
          simpa using hck
        simp [List.count_cons, hkc']
      rw [hcc]

theorem keys_foldl_incrKey (cs : List String) :
    ∀ (m : List (String × Int)), (cs.foldl incrKey m).map Prod.fst = m.map Prod.fst := by
  induction cs with
  | nil => intro m; rfl
  | cons c rest ih =>
    intro m
    have e : (c :: rest).foldl incrKey m = rest.foldl incrKey (incrKey m c) := rfl
    rw [e, ih, keys_incrKey]

theorem keys_foldl_bump (g' : List (String × List String)) :
    ∀ (m : List (String × Int)),
      (g'.foldl (fun m p => p.2.foldl incrKey m) m).map Prod.fst = m.map Prod.fst := by
  induction g' with
  | nil => intro m; rfl
  | cons p rest ih =>
    intro m
    have e : (p :: rest).foldl (fun m q => q.2.foldl incrKey m) m
        = rest.foldl (fun m q => q.2.foldl incrKey m) (p.2.foldl incrKey m) := rfl
    rw [e, ih, keys_foldl_incrKey]

theorem keys_initIndeg (g : List (String × List String)) :
    (initIndeg g).map Prod.fst = keysOf g := by
  rw [initIndeg, keys_foldl_bump]
  simp [keysOf]

theorem lookupA_foldl_bump (g' : List (String × List String)) :
    ∀ (m : List (String × Int)) (k : String),
      lookupA (g'.foldl (fun m p => p.2.foldl incrKey m) m) k
        = (lookupA m k).map (· + ((g'.map (fun p => p.2.count k)).sum : Int)) := by
  induction g' with
  | nil =>
    intro m k
    simp
  | cons p rest ih =>
    intro m k
    have e : (p :: rest).foldl (fun m q => q.2.foldl incrKey m) m
        = rest.foldl (fun m q => q.2.foldl incrKey m) (p.2.foldl incrKey m) := rfl
    rw [e, ih, lookupA_foldl_incrKey, Option.map_map]
    cases lookupA m k with
    | none => simp
    | some x =>
      simp only [Option.map_some', Function.comp, List.map_cons, List.sum_cons]
      congr 1
      ring

theorem lookupA_zeros (g : List (String × List String)) (k : String) (hk : k ∈ keysOf g) :
    lookupA (g.map (fun p => (p.1, (0 : Int)))) k = some 0 := by
  induction g with
  | nil => simp [keysOf] at hk
  | cons p rest ih =>
    by_cases hpk : p.1 = k
    · simp [lookupA_cons, hpk]
    · simp only [keysOf, List.map_cons, List.mem_cons] at hk
      rcases hk with hk | hk
      · exact absurd hk.symm hpk
      · simp only [List.map_cons, lookupA_cons, if_neg hpk]
        exact ih hk

theorem lookupA_initIndeg (g : List (String × List String)) (k : String)
    (hk : k ∈ keysOf g) :
    lookupA (initIndeg g) k = some ((remIndeg g [] k : Int)) := by
  rw [initIndeg, lookupA_foldl_bump, lookupA_zeros g k hk, remIndeg_nil_dead]
  simp only [Option.map_some', zero_add]
  congr 1
  rw [Nat.cast_list_sum, List.map_map]
  rfl

/-- Every emitted node's parents are emitted strictly earlier. -/
def PrefixClosed (g : List (String × List String)) (order : List String) : Prop :=
  ∀ (i : Nat) (h : i < order.length) (u : String),
    Edge g u (order.get ⟨i, h⟩) → u ∈ order.take i

theorem edge_source_mem {g : List (String × List String)} {u v : String}
    (h : Edge g u v) : u ∈ keysOf g := by
  obtain ⟨cs, h1, _⟩ := h
  exact List.mem_map_of_mem Prod.fst (lookupA_mem h1)

theorem kahnLoop_nil (g : List (String × List String)) (indeg : List (String × Int))
    (order : List String) : kahnLoop g indeg [] order = order := by
  rw [kahnLoop]

theorem kahnLoop_cons (g : List (String × List String)) (indeg : List (String × Int))
    (nb : String) (rest order : List String) :
    kahnLoop g indeg (nb :: rest) order =
      kahnLoop g (processChildren indeg rest ((lookupA g nb).getD [])).1
        (processChildren indeg rest ((lookupA g nb).getD [])).2 (order ++ [nb]) := by
  rw [kahnLoop]

/-- Main loop invariant of Kahn's algorithm as implemented in graph.py: the
emitted order is duplicate-free, drawn from the graph's nodes, contains
exactly the nodes whose remaining in-degree reached zero, and lists every
node after all of its parents. -/
theorem kahnLoop_inv (g : List (String × List String)) (hC : Closed g)
    (hN : (keysOf g).Nodup) :
    ∀ (indeg : List (String × Int)) (queue order : List String),
      ((order ++ queue).Nodup) →
      (∀ x ∈ order ++ queue, x ∈ keysOf g) →
      (indeg.map Prod.fst = keysOf g) →
      (∀ v ∈ keysOf g, lookupA indeg v = some ((remIndeg g order v : Int))) →
      (∀ v ∈ keysOf g, (v ∈ order ++ queue ↔ remIndeg g order v = 0)) →
      PrefixClosed g order →
      (kahnLoop g indeg queue order).Nodup ∧
      (∀ x ∈ kahnLoop g indeg queue order, x ∈ keysOf g) ∧
      (∀ v ∈ keysOf g, (v ∈ kahnLoop g indeg queue order ↔
          remIndeg g (kahnLoop g indeg queue order) v = 0)) ∧
      PrefixClosed g (kahnLoop g indeg queue order) ∧
      order <+: kahnLoop g indeg queue order := by
  intro indeg queue order
  induction indeg, queue, order using kahnLoop.induct g with
  | case1 indeg order =>
    intro I1 I2 _ _ I5 I6
    rw [kahnLoop_nil]
    simp only [List.append_nil] at I1 I2 I5
    exact ⟨I1, I2, I5, I6, List.prefix_rfl⟩
  | case2 indeg order nb rest p ih =>
    intro I1 I2 I3 I4 I5 I6
    rw [kahnLoop_cons]
    have hnbq : nb ∈ order ++ nb :: rest := by simp
    have hnbk : nb ∈ keysOf g := I2 nb hnbq
    obtain ⟨cs0, hcs0⟩ := mem_keys_lookupA (g := g) hnbk
    have hvnotord : nb ∉ order := by
      rcases List.nodup_append.mp I1 with ⟨_, _, hdisj⟩
      intro hmem
      exact hdisj hmem (List.mem_cons_self _ _)
    have hsnoc : ∀ k, remIndeg g order k = remIndeg g (order ++ [nb]) k + cs0.count k :=
      remIndeg_snoc g hN nb cs0 hcs0 order hvnotord
    -- instantiate the processChildren specification
    have hspec := processChildren_spec cs0 indeg rest (fun k => remIndeg g (order ++ [nb]) k)
      (by
        intro c hc
        rw [I3]
        exact hC (nb, cs0) (lookupA_mem hcs0) c hc)
      (by
        intro k hk
        rw [I3] at hk
        rw [I4 k hk]
        have hs := hsnoc k
        show some ((remIndeg g order k : Int))
            = some ((remIndeg g (order ++ [nb]) k : Int) + (cs0.count k : Int))
        congr 1
        omega)
      (by
        intro x hx
        have hxq : x ∈ order ++ nb :: rest := by simp [hx]
        have hxk : x ∈ keysOf g := I2 x hxq
        have h0 : remIndeg g order x = 0 := (I5 x hxk).mp hxq
        have hx2 := hsnoc x
        show remIndeg g (order ++ [nb]) x = 0 ∧ cs0.count x = 0
        constructor <;> omega)
    have hpd : p = processChildren indeg rest cs0 := by
      show processChildren indeg rest ((lookupA g nb).getD []) = processChildren indeg rest cs0
      rw [hcs0]
      rfl
    rw [hpd] at ih
    rw [hcs0]
    simp only [Option.getD_some]
    obtain ⟨hkeysP, hlookP, new, hqeq, hnnd, hnmem⟩ := hspec
    set p := processChildren indeg rest cs0 with hp
    -- freshness of the newly enqueued nodes
    have hnewkeys : ∀ x ∈ new, x ∈ keysOf g := by
      intro x hx
      have := (hnmem x).mp hx
      exact hC (nb, cs0) (lookupA_mem hcs0) x (List.count_pos_iff.mp this.1)
    have hnewfresh : ∀ x ∈ new, x ∉ order ++ nb :: rest := by
      intro x hx hmem
      obtain ⟨hcnt, hrem⟩ := (hnmem x).mp hx
      have hxk : x ∈ keysOf g := hnewkeys x hx
      have h0 : remIndeg g order x = 0 := (I5 x hxk).mp hmem
      have := hsnoc x
      omega
    have eqn : (order ++ [nb]) ++ (rest ++ new) = (order ++ nb :: rest) ++ new := by
      simp
    -- re-establish the invariant for the next state
    have I1' : ((order ++ [nb]) ++ p.2).Nodup := by
      rw [hqeq, eqn]
      refine List.nodup_append.mpr ⟨I1, hnnd, ?_⟩
      intro a ha hmem
      exact hnewfresh a hmem ha
    have I2' : ∀ x ∈ (order ++ [nb]) ++ p.2, x ∈ keysOf g := by
      intro x hx
      rw [hqeq, eqn] at hx
      rcases List.mem_append.mp hx with hx | hx
      · exact I2 x hx
      · exact hnewkeys x hx
    have I3' : p.1.map Prod.fst = keysOf g := hkeysP.trans I3
    have I4' : ∀ v ∈ keysOf g,
        lookupA p.1 v = some ((remIndeg g (order ++ [nb]) v : Int)) := by
      intro v hv
      rw [← I3] at hv
      exact hlookP v hv
    have I5' : ∀ v ∈ keysOf g,
        (v ∈ (order ++ [nb]) ++ p.2 ↔ remIndeg g (order ++ [nb]) v = 0) := by
      intro v hv
      rw [hqeq, eqn]
      constructor
      · intro hmem
        rcases List.mem_append.mp hmem with hmem | hmem
        · have h0 : remIndeg g order v = 0 := (I5 v hv).mp hmem
          have := hsnoc v
          omega
        · exact ((hnmem v).mp hmem).2
      · intro hrem
        by_cases hcnt : 0 < cs0.count v
        · exact List.mem_append.mpr (Or.inr ((hnmem v).mpr ⟨hcnt, hrem⟩))
        · have h0 : remIndeg g order v = 0 := by
            have := hsnoc v
            omega
          exact List.mem_append.mpr (Or.inl ((I5 v hv).mpr h0))
    have I6' : PrefixClosed g (order ++ [nb]) := by
      intro i h u hedge
      have hlen : i < order.length + 1 := by
        simpa using h
      by_cases hi : i < order.length
      · have hget : (order ++ [nb]).get ⟨i, h⟩ = order.get ⟨i, hi⟩ := by
          simp only [List.get_eq_getElem]
          exact List.getElem_append_left hi
        rw [hget] at hedge
        have := I6 i hi u hedge
        rw [List.take_append_of_le_length (Nat.le_of_lt hi)]
        exact this
      · have hieq : i = order.length := by omega
        have hget : (order ++ [nb]).get ⟨i, h⟩ = nb := by
          simp only [List.get_eq_getElem]
          exact List.getElem_concat_length order nb i hieq _
        rw [hget] at hedge
        subst hieq
        rw [List.take_append_of_le_length (Nat.le_refl _), List.take_length]
        -- a parent of `nb` must already be in the emitted order
        by_contra hu
        obtain ⟨csu, hlu, hmemu⟩ := hedge
        have hpos : 0 < remIndeg g order nb :=
          remIndeg_pos_of_edge g hN u csu nb order hlu hmemu hu
        have h0 : remIndeg g order nb = 0 := (I5 nb hnbk).mp hnbq
        omega
    obtain ⟨C1, C2, C3, C4, C5⟩ := ih I1' I2' I3' I4' I5' I6'
    exact ⟨C1, C2, C3, C4, (List.prefix_append order [nb]).trans C5⟩

theorem mem_take_indexOf_lt (l : List String) (u : String) :
    ∀ (i : Nat), u ∈ l.take i → l.indexOf u < i := by
  induction l with
  | nil =>
    intro i h
    simp at h
  | cons a l' ih =>
    intro i h
    match i with
    | 0 => simp at h
    | j + 1 =>
      rw [List.take_succ_cons] at h
      rcases List.mem_cons.mp h with h | h
      · subst h
        rw [List.indexOf_cons_self]
        omega
      · by_cases hau : a = u
        · subst hau
          rw [List.indexOf_cons_self]
          omega
        · rw [List.indexOf_cons_ne l' hau]
          have := ih j h
          omega

theorem ordered_edge_index (g : List (String × List String)) (out : List String)
    (hpc : PrefixClosed g out) {u v : String} (hedge : Edge g u v) (hv : v ∈ out) :
    u ∈ out ∧ out.indexOf u < out.indexOf v := by
  have hvi : out.indexOf v < out.length := List.indexOf_lt_length.mpr hv
  have hget : out.get ⟨out.indexOf v, hvi⟩ = v := by
    simp only [List.get_eq_getElem]
    exact List.getElem_indexOf hvi
  have htake := hpc (out.indexOf v) hvi u (by rw [hget]; exact hedge)
  exact ⟨List.mem_of_mem_take htake, mem_take_indexOf_lt out u _ htake⟩

theorem transGen_index_lt (g : List (String × List String)) (out : List String)
    (hpc : PrefixClosed g out) {a b : String}
    (h : Relation.TransGen (Edge g) a b) (hb : b ∈ out) :
    a ∈ out ∧ out.indexOf a < out.indexOf b := by
  induction h with
  | single hr => exact ordered_edge_index g out hpc hr hb
  | tail _ hr ih =>
    obtain ⟨hmem, hlt⟩ := ordered_edge_index g out hpc hr hb
    obtain ⟨hmem', hlt'⟩ := ih hmem
    exact ⟨hmem', by omega⟩

theorem no_cycle_in_out (g : List (String × List String)) (out : List String)
    (hpc : PrefixClosed g out) {c : String}
    (hcyc : Relation.TransGen (Edge g) c c) : c ∉ out := by
  intro hmem
  have := transGen_index_lt g out hpc hcyc hmem
  omega

theorem transGen_source_mem {g : List (String × List String)} {a b : String}
    (h : Relation.TransGen (Edge g) a b) : a ∈ keysOf g := by
  induction h with
  | single hr => exact edge_source_mem hr
  | tail _ _ ih => exact ih

/-- `v` is blocked: some node on a dependency cycle reaches `v` (possibly
`v` itself).  These are exactly the nodes Kahn's algorithm cannot emit. -/
def Blocked (g : List (String × List String)) (v : String) : Prop :=
  ∃ c, Relation.TransGen (Edge g) c c ∧ Relation.ReflTransGen (Edge g) c v

/-- Every node left out by a finished run of the loop is reachable from a
dependency cycle. -/
theorem blocked_of_not_mem_out (g : List (String × List String))
    (hN : (keysOf g).Nodup) (out : List String)
    (hiff : ∀ v ∈ keysOf g, (v ∈ out ↔ remIndeg g out v = 0))
    {v0 : String} (hv0 : v0 ∈ keysOf g) (hv0out : v0 ∉ out) :
    Blocked g v0 := by
  -- every stuck node has a stuck parent
  have hpred : ∀ x, ∃ u,
      ((x ∈ keysOf g ∧ x ∉ out) → ((u ∈ keysOf g ∧ u ∉ out) ∧ Edge g u x)) := by
    intro x
    by_cases hx : x ∈ keysOf g ∧ x ∉ out
    · have hne : remIndeg g out x ≠ 0 := fun h0 => hx.2 ((hiff x hx.1).mpr h0)
      obtain ⟨u, hu1, hu2, hu3⟩ :=
        exists_edge_of_remIndeg_pos g hN out x (Nat.pos_of_ne_zero hne)
      exact ⟨u, fun _ => ⟨⟨hu2, hu1⟩, hu3⟩⟩
    · exact ⟨x, fun hc => absurd hc hx⟩
  choose f hf using hpred
  -- iterating the parent choice stays inside the stuck set
  have hseqS : ∀ n, f^[n] v0 ∈ keysOf g ∧ f^[n] v0 ∉ out := by
    intro n
    induction n with
    | zero => exact ⟨hv0, hv0out⟩
    | succ n ih =>
      rw [Function.iterate_succ_apply']
      exact (hf (f^[n] v0) ih).1
  have hedge : ∀ n, Edge g (f^[n + 1] v0) (f^[n] v0) := by
    intro n
    rw [Function.iterate_succ_apply']
    exact (hf (f^[n] v0) (hseqS n)).2
  have chain : ∀ (d i : Nat), Relation.TransGen (Edge g) (f^[i + d + 1] v0) (f^[i] v0) := by
    intro d
    induction d with
    | zero =>
      intro i
      exact Relation.TransGen.single (hedge i)
    | succ d ih =>
      intro i
      have h1 : Relation.TransGen (Edge g) (f^[(i + d + 1) + 1] v0) (f^[i + d + 1] v0) :=
        Relation.TransGen.single (hedge (i + d + 1))
      have h2 := ih i
      have e : i + (d + 1) + 1 = (i + d + 1) + 1 := by omega
      rw [e]
      exact h1.trans h2
  -- pigeonhole: two equal iterates
  have hmaps : ∀ n ∈ Finset.range ((keysOf g).length + 1),
      f^[n] v0 ∈ (keysOf g).toFinset := by
    intro n _
    exact List.mem_toFinset.mpr (hseqS n).1
  have hcard : ((keysOf g).toFinset).card < (Finset.range ((keysOf g).length + 1)).card := by
    rw [Finset.card_range]
    have := List.toFinset_card_le (keysOf g)
    omega
  obtain ⟨i, _, j, _, hij, heq⟩ :=
    Finset.exists_ne_map_eq_of_card_lt_of_maps_to hcard hmaps
  -- arrange i < j
  rcases Nat.lt_or_ge i j with hlt | hge
  · obtain ⟨d, hd⟩ : ∃ d, j = i + d + 1 := ⟨j - i - 1, by omega⟩
    refine ⟨f^[j] v0, ?_, ?_⟩
    · have := chain d i
      rw [← hd] at this
      rw [heq] at this
      -- wait: heq : f^[i] v0 = f^[j] v0
      exact this
    · have hj1 : 1 ≤ j := by omega
      obtain ⟨d', hd'⟩ : ∃ d', j = 0 + d' + 1 := ⟨j - 1, by omega⟩
      have := chain d' 0
      rw [← hd'] at this
      exact this.to_reflTransGen
  · have hlt : j < i := by omega
    obtain ⟨d, hd⟩ : ∃ d, i = j + d + 1 := ⟨i - j - 1, by omega⟩
    refine ⟨f^[i] v0, ?_, ?_⟩
    · have := chain d j
      rw [← hd] at this
      rw [← heq] at this
      exact this
    · have hi1 : 1 ≤ i := by omega
      obtain ⟨d', hd'⟩ : ∃ d', i = 0 + d' + 1 := ⟨i - 1, by omega⟩
      have := chain d' 0
      rw [← hd'] at this
      exact this.to_reflTransGen

/-- Conversely, a blocked node is never emitted. -/
theorem not_mem_out_of_blocked (g : List (String × List String)) (out : List String)
    (hpc : PrefixClosed g out) {v : String} (hb : Blocked g v) : v ∉ out := by
  obtain ⟨c, hcyc, hreach⟩ := hb
  intro hv
  rcases Relation.reflTransGen_iff_eq_or_transGen.mp hreach with heq | htg
  · subst heq
    exact no_cycle_in_out g out hpc hcyc hv
  · have := (transGen_index_lt g out hpc htg hv).1
    exact no_cycle_in_out g out hpc hcyc this

theorem length_lt_of_missing (out keys : List String) (hnd : out.Nodup)
    (hkn : keys.Nodup) (hsub : ∀ x ∈ out, x ∈ keys) (c : String)
    (hc : c ∈ keys) (hcout : c ∉ out) : out.length < keys.length := by
  have h1 : out.toFinset ⊆ keys.toFinset.erase c := by
    intro x hx
    have hx' := List.mem_toFinset.mp hx
    refine Finset.mem_erase.mpr ⟨?_, List.mem_toFinset.mpr (hsub x hx')⟩
    intro hxc
    subst hxc
    exact hcout hx'
  have h2 := Finset.card_le_card h1
  rw [Finset.card_erase_of_mem (List.mem_toFinset.mpr hc)] at h2
  rw [List.toFinset_card_of_nodup hnd] at h2
  rw [List.toFinset_card_of_nodup hkn] at h2
  have h3 : 0 < keys.length := List.length_pos_of_mem hc
  omega

theorem length_eq_of_same_mem (out keys : List String) (hnd : out.Nodup)
    (hkn : keys.Nodup) (hiff : ∀ x, x ∈ out ↔ x ∈ keys) :
    out.length = keys.length := by
  have h1 : out.toFinset = keys.toFinset := by
    apply Finset.ext
    intro x
    rw [List.mem_toFinset, List.mem_toFinset]
    exact hiff x
  have h2 := List.toFinset_card_of_nodup hnd
  have h3 := List.toFinset_card_of_nodup hkn
  rw [h1] at h2
  omega

theorem mem_filter_zero_keys (m : List (String × Int)) (hnd : (m.map Prod.fst).Nodup)
    (v : String) :
    v ∈ (m.filter (fun p => decide (p.2 = 0))).map Prod.fst ↔ lookupA m v = some 0 := by
  induction m with
  | nil => simp
  | cons p rest ih =>
    obtain ⟨k, x⟩ := p
    simp only [List.map_cons, List.nodup_cons] at hnd
    by_cases hk : k = v
    · subst hk
      rw [lookupA_cons, if_pos rfl]
      by_cases hx : x = 0
      · subst hx
        refine ⟨fun _ => rfl, fun _ => ?_⟩
        simp [List.filter_cons]
      · have hfx : (decide (x = 0)) = false := by
          simp [hx]
        simp only [List.filter_cons, hfx]
        constructor
        · intro hmem
          exfalso
          have : k ∈ (List.filter (fun p => decide (p.2 = 0)) rest).map Prod.fst := by
            simpa using hmem
          have hsub : (List.filter (fun p => decide (p.2 = 0)) rest).map Prod.fst ⊆
              rest.map Prod.fst :=
            (List.Sublist.map Prod.fst (List.filter_sublist rest)).subset
          exact hnd.1 (hsub this)
        · intro hsome
          injection hsome with hsome
          exact absurd hsome hx
    · rw [lookupA_cons, if_neg hk]
      rw [← ih hnd.2]
      simp only [List.filter_cons]
      by_cases hx : (decide (x = 0)) = true
      · simp only [hx, if_true, List.map_cons, List.mem_cons]
        constructor
        · rintro (h | h)
          · exact absurd h.symm hk
          · exact h
        · intro h
          exact Or.inr h
      · simp only [hx]
        rw [if_neg (by simp_all)]

/-- The invariants of `kahnLoop_inv` instantiated at graph.py's initial
state (fresh in-degrees, queue of all zero in-degree keys, empty order). -/
theorem kahnOut_spec (g : List (String × List String)) (hC : Closed g)
    (hN : (keysOf g).Nodup) :
    (kahnOut g).Nodup ∧
    (∀ x ∈ kahnOut g, x ∈ keysOf g) ∧
    (∀ v ∈ keysOf g, (v ∈ kahnOut g ↔ remIndeg g (kahnOut g) v = 0)) ∧
    PrefixClosed g (kahnOut g) := by
  have hkeys := keys_initIndeg g
  have hseedsub : kahnSeed g ⊆ keysOf g := by
    rw [kahnSeed, ← hkeys]
    exact (List.Sublist.map Prod.fst (List.filter_sublist (initIndeg g))).subset
  have hseednd : (kahnSeed g).Nodup := by
    rw [kahnSeed]
    exact List.Nodup.sublist (List.Sublist.map Prod.fst (List.filter_sublist (initIndeg g)))
      (by rw [hkeys]; exact hN)
  have I5 : ∀ v ∈ keysOf g, (v ∈ ([] : List String) ++ kahnSeed g ↔ remIndeg g [] v = 0) := by
    intro v hv
    rw [List.nil_append, kahnSeed,
      mem_filter_zero_keys (initIndeg g) (by rw [hkeys]; exact hN) v,
      lookupA_initIndeg g v hv]
    constructor
    · intro h
      injection h with h
      exact_mod_cast h
    · intro h
      rw [h]
      rfl
  obtain ⟨C1, C2, C3, C4, _⟩ := kahnLoop_inv g hC hN (initIndeg g) (kahnSeed g) []
    (by simpa using hseednd)
    (by
      intro x hx
      rw [List.nil_append] at hx
      exact hseedsub hx)
    hkeys
    (fun v hv => lookupA_initIndeg g v hv)
    I5
    (by intro i h u; simp at h)
  exact ⟨C1, C2, C3, C4⟩

/-- graph.py's scheduler on an acyclic closed graph: a total topological
order is returned. -/
theorem get_order_acyclic (g : List (String × List String)) (hC : Closed g)
    (hN : (keysOf g).Nodup) (hA : Acyclic g) :
    get_table_creation_order g = .ok (kahnOut g) ∧
    (∀ v, v ∈ kahnOut g ↔ v ∈ keysOf g) ∧ (kahnOut g).Nodup ∧
    (∀ u v, Edge g u v →
      (kahnOut g).indexOf u < (kahnOut g).indexOf v) := by
  obtain ⟨hnd, hsub, hiff, hpc⟩ := kahnOut_spec g hC hN
  have hall : ∀ v, v ∈ kahnOut g ↔ v ∈ keysOf g := by
    intro v
    constructor
    · exact hsub v
    · intro hv
      by_contra hvout
      obtain ⟨c, hcyc, _⟩ := blocked_of_not_mem_out g hN (kahnOut g) hiff hv hvout
      exact hA c hcyc
  have hlen : (kahnOut g).length = (initIndeg g).length := by
    have h1 : (initIndeg g).length = (keysOf g).length := by
      have := congrArg List.length (keys_initIndeg g)
      simpa using this
    rw [h1]
    exact length_eq_of_same_mem (kahnOut g) (keysOf g) hnd hN hall
  refine ⟨?_, hall, hnd, ?_⟩
  · rw [get_table_creation_order, if_pos hlen]
  · intro u v hedge
    have hv : v ∈ kahnOut g := by
      rw [hall]
      obtain ⟨cs, h1, h2⟩ := hedge
      exact hC (u, cs) (lookupA_mem h1) v h2
    exact (ordered_edge_index g (kahnOut g) hpc hedge hv).2

/-- graph.py's scheduler on a cyclic graph: the fixed cycle message is
raised (the unordered tables are not named). -/
theorem get_order_cyclic (g : List (String × List String)) (hC : Closed g)
    (hN : (keysOf g).Nodup) (c : String)
    (hcyc : Relation.TransGen (Edge g) c c) :
    get_table_creation_order g =
      .error "Graph has at least one cycle, topological sort not possible." := by
  obtain ⟨hnd, hsub, _, hpc⟩ := kahnOut_spec g hC hN
  have hck : c ∈ keysOf g := transGen_source_mem hcyc
  have hcout : c ∉ kahnOut g := no_cycle_in_out g (kahnOut g) hpc hcyc
  have hlen : (kahnOut g).length < (keysOf g).length :=
    length_lt_of_missing (kahnOut g) (keysOf g) hnd hN hsub c hck hcout
  have h1 : (initIndeg g).length = (keysOf g).length := by
    have := congrArg List.length (keys_initIndeg g)
    simpa using this
  rw [get_table_creation_order, if_neg (by omega)]

/-! ## dependency.py — `determine_table_creation_order` -/

/-- The slice of `TableTraitsWithName` (llm_helpers.py) that
`determine_table_creation_order` reads: the table's name and the
`parent_table_name` of each entry of `dependencies`. -/
structure TableTraitsWithName where
  name : String
  dependencies : List String
deriving Repr, DecidableEq

/-- The dependency edge relation declared by a traits list:
`EdgeT traits p c` iff some trait (a child table `c`) lists `p` among its
`dependencies`' parent table names. -/
def EdgeT (traits : List TableTraitsWithName) (p c : String) : Prop :=
  ∃ t ∈ traits, t.name = c ∧ p ∈ t.dependencies

/-- Append `x` if not already present (Python `set.add` arrival order /
`dict.setdefault` insertion order). -/
def addNew (l : List String) (x : String) : List String :=
  if x ∈ l then l else l ++ [x]

/-- dependency.py:43-51 — all table names mentioned by the traits, in first
appearance order (the contents of `all_potential_nodes`, and the key
insertion order of `adj` / `in_degree`). -/
def collectNodes (traits : List TableTraitsWithName) : List String :=
  traits.foldl (fun acc t => t.dependencies.foldl addNew (addNew acc t.name)) []

/-- Append `child` to the child list bound to `parent`. -/
def appendChild : List (String × List String) → String → String → List (String × List String)
  | [], _, _ => []
  | (k, cs) :: rest, parent, child =>
    if k = parent then (k, cs ++ [child]) :: rest
    else (k, cs) :: appendChild rest parent child

/-- dependency.py:85-88 — add edge parent→child unless already present,
incrementing the child's in-degree alongside. -/
def addEdgeStep (st : (List (String × List String)) × List (String × Int))
    (parent child : String) : (List (String × List String)) × List (String × Int) :=
  if child ∈ (lookupA st.1 parent).getD [] then st
  else (appendChild st.1 parent child, incrKey st.2 child)

/-- dependency.py:38-51 and 79-88 — the adjacency sets (as insertion-ordered
duplicate-free lists) and in-degree table built from the traits. -/
def buildGraph (traits : List TableTraitsWithName) :
    (List (String × List String)) × List (String × Int) :=
  let nodes := collectNodes traits
  traits.foldl
    (fun st t => t.dependencies.foldl (fun st p => addEdgeStep st p t.name) st)
    (nodes.map (fun n => (n, ([] : List String))), nodes.map (fun n => (n, (0 : Int))))

/-- Python `sorted` on strings (code-point lexicographic), modelled through
the character lists so that it evaluates inside the kernel. -/
def pySorted (l : List String) : List String :=
  l.insertionSort (fun a b => a.data ≤ b.data)

/-- dependency.py:104 sorts each popped node's children before decrementing,
so the graph handed to the shared Kahn loop carries sorted child lists. -/
def sortedAdj (adj : List (String × List String)) : List (String × List String) :=
  adj.map (fun p => (p.1, pySorted p.2))

/-- Same membership, as Python's set equality test on the two universes. -/
def sameSet (a b : List String) : Bool :=
  a.all (fun x => decide (x ∈ b)) && b.all (fun x => decide (x ∈ a))

/-- The three `ValueError`s of `determine_table_creation_order`, with the
data interpolated into their messages. -/
inductive DepError
  | emptyTraits
  | mismatch (missingInTraits extraInTraits : List String)
  | cyclic (problemTables : List String)
deriving Repr, DecidableEq

/-- dependency.py `determine_table_creation_order(table_traits_list,
initial_table_list)`.  `seedOrder` is the iteration order of the Python set
`all_potential_nodes` at line 93 (unspecified by the language; theorems
quantify over every permutation of the node set). -/
def depSeedQueue (traits : List TableTraitsWithName) (seedOrder : List String) :
    List String :=
  seedOrder.filter (fun n => decide (lookupA (buildGraph traits).2 n = some 0))

/-- The order emitted by the while-loop of dependency.py:98-107. -/
def depOut (traits : List TableTraitsWithName) (seedOrder : List String) : List String :=
  kahnLoop (sortedAdj (buildGraph traits).1) (buildGraph traits).2
    (depSeedQueue traits seedOrder) []

def determine_table_creation_order (traits : List TableTraitsWithName)
    (initial : List String) (seedOrder : List String) :
    Except DepError (List String) :=
  if traits = [] then
    if initial = [] then .ok []
    else .error .emptyTraits
  else
    if sameSet (collectNodes traits) initial then
      if (depOut traits seedOrder).length = (collectNodes traits).length then
        .ok (depOut traits seedOrder)
      else
        .error (.cyclic ((collectNodes traits).filter
          (fun n => decide (n ∉ depOut traits seedOrder))))
    else
      .error (.mismatch
        (initial.filter (fun n => decide (n ∉ collectNodes traits)))
        ((collectNodes traits).filter (fun n => decide (n ∉ initial))))

theorem lookupA_of_mem_nodup {α : Type} {l : List (String × α)} {k : String} {v : α}
    (hnd : (l.map Prod.fst).Nodup) (hm : (k, v) ∈ l) : lookupA l k = some v := by
  induction l with
  | nil => simp at hm
  | cons p rest ih =>
    obtain ⟨k', v'⟩ := p
    simp only [List.map_cons, List.nodup_cons] at hnd
    rcases List.mem_cons.mp hm with hm | hm
    · injection hm with h1 h2
      subst h1
      subst h2
      rw [lookupA_cons, if_pos rfl]
    · have hne : k' ≠ k := by
        intro hc
        subst hc
        exact hnd.1 (List.mem_map_of_mem Prod.fst hm)
      rw [lookupA_cons, if_neg hne]
      exact ih hnd.2 hm

theorem mem_addNew (l : List String) (x y : String) :
    y ∈ addNew l x ↔ y ∈ l ∨ y = x := by
  rw [addNew]
  by_cases h : x ∈ l
  · rw [if_pos h]
    constructor
    · exact Or.inl
    · rintro (hy | hy)
      · exact hy
      · exact hy ▸ h
  · rw [if_neg h]
    simp

theorem nodup_addNew (l : List String) (x : String) (h : l.Nodup) :
    (addNew l x).Nodup := by
  rw [addNew]
  by_cases hx : x ∈ l
  · rwa [if_pos hx]
  · rw [if_neg hx]
    simp [List.nodup_append, h, hx]

theorem mem_foldl_addNew (xs : List String) :
    ∀ (l : List String) (y : String), y ∈ xs.foldl addNew l ↔ y ∈ l ∨ y ∈ xs := by
  induction xs with
  | nil => simp
  | cons x rest ih =>
    intro l y
    have e : (x :: rest).foldl addNew l = rest.foldl addNew (addNew l x) := rfl
    rw [e, ih, mem_addNew]
    simp only [List.mem_cons]
    tauto

theorem nodup_foldl_addNew (xs : List String) :
    ∀ (l : List String), l.Nodup → (xs.foldl addNew l).Nodup := by
  induction xs with
  | nil => intro l h; exact h
  | cons x rest ih =>
    intro l h
    exact ih (addNew l x) (nodup_addNew l x h)

theorem collectNodes_spec (traits : List TableTraitsWithName) :
    (collectNodes traits).Nodup ∧
    (∀ y, y ∈ collectNodes traits ↔ ∃ t ∈ traits, y = t.name ∨ y ∈ t.dependencies) := by
  have main : ∀ (acc : List String), acc.Nodup →
      (traits.foldl (fun acc t => t.dependencies.foldl addNew (addNew acc t.name)) acc).Nodup ∧
      (∀ y, y ∈ traits.foldl (fun acc t => t.dependencies.foldl addNew (addNew acc t.name)) acc ↔
        y ∈ acc ∨ ∃ t ∈ traits, y = t.name ∨ y ∈ t.dependencies) := by
    induction traits with
    | nil =>
      intro acc hacc
      refine ⟨hacc, ?_⟩
      simp
    | cons t rest ih =>
      intro acc hacc
      have e : ((t :: rest).foldl (fun acc t => t.dependencies.foldl addNew (addNew acc t.name)) acc)
          = rest.foldl (fun acc t => t.dependencies.foldl addNew (addNew acc t.name))
              (t.dependencies.foldl addNew (addNew acc t.name)) := rfl
      obtain ⟨ihnd, ihmem⟩ := ih (t.dependencies.foldl addNew (addNew acc t.name))
        (nodup_foldl_addNew _ _ (nodup_addNew acc t.name hacc))
      rw [e]
      refine ⟨ihnd, ?_⟩
      intro y
      rw [ihmem y, mem_foldl_addNew, mem_addNew]
      simp only [List.mem_cons]
      constructor
      · rintro (((h | h) | h) | ⟨u, hu, h⟩)
        · exact Or.inl h
        · exact Or.inr ⟨t, Or.inl rfl, Or.inl h⟩
        · exact Or.inr ⟨t, Or.inl rfl, Or.inr h⟩
        · exact Or.inr ⟨u, Or.inr hu, h⟩
      · rintro (h | ⟨u, (hu | hu), h⟩)
        · exact Or.inl (Or.inl (Or.inl h))
        · subst hu
          rcases h with h | h
          · exact Or.inl (Or.inl (Or.inr h))
          · exact Or.inl (Or.inr h)
        · exact Or.inr ⟨u, hu, h⟩
  obtain ⟨h1, h2⟩ := main [] List.nodup_nil
  refine ⟨h1, ?_⟩
  intro y
  rw [collectNodes, h2 y]
  simp

theorem keys_appendChild (adj : List (String × List String)) (parent child : String) :
    (appendChild adj parent child).map Prod.fst = adj.map Prod.fst := by
  induction adj with
  | nil => rfl
  | cons p rest ih =>
    obtain ⟨k, cs⟩ := p
    by_cases h : k = parent <;> simp [appendChild, h, ih]

theorem lookupA_appendChild_self (adj : List (String × List String)) (parent child : String) :
    lookupA (appendChild adj parent child) parent = (lookupA adj parent).map (· ++ [child]) := by
  induction adj with
  | nil => rfl
  | cons p rest ih =>
    obtain ⟨k, cs⟩ := p
    by_cases h : k = parent <;> simp [appendChild, lookupA_cons, h, ih]

theorem lookupA_appendChild_other (adj : List (String × List String))
    (parent child q : String) (hne : parent ≠ q) :
    lookupA (appendChild adj parent child) q = lookupA adj q := by
  induction adj with
  | nil => rfl
  | cons p rest ih =>
    obtain ⟨k, cs⟩ := p
    by_cases h : k = parent
    · subst h
      simp [appendChild, lookupA_cons, hne]
    · simp [appendChild, lookupA_cons, h, ih]

theorem count_singleton_ite (child v : String) :
    ([child].count v) = if child = v then 1 else 0 := by
  by_cases hcv : child = v
  · subst hcv
    simp
  · have hb : ¬(child == v) = true := by simpa using hcv
    simp [List.count_cons, hcv, hb]

theorem remIndeg_appendChild (adj : List (String × List String)) (parent child v : String)
    (hp : parent ∈ adj.map Prod.fst) :
    remIndeg (appendChild adj parent child) [] v
      = remIndeg adj [] v + (if child = v then 1 else 0) := by
  rw [remIndeg_nil_dead, remIndeg_nil_dead]
  induction adj with
  | nil => simp at hp
  | cons p rest ih =>
    obtain ⟨k, cs⟩ := p
    by_cases h : k = parent
    · subst h
      have e : appendChild ((k, cs) :: rest) k child = (k, cs ++ [child]) :: rest := by
        simp [appendChild]
      rw [e]
      simp only [List.map_cons, List.sum_cons]
      have hcc : (cs ++ [child]).count v = cs.count v + (if child = v then 1 else 0) := by
        rw [List.count_append, count_singleton_ite]
      omega
    · simp only [List.map_cons, List.mem_cons] at hp
      rcases hp with hp | hp
      · exact absurd hp.symm h
      · simp only [appendChild, if_neg h, List.map_cons, List.sum_cons]
        have := ih hp
        omega

/-- The invariant maintained while dependency.py builds `adj`/`in_degree`. -/
def BG (nodes : List String) (st : (List (String × List String)) × List (String × Int)) : Prop :=
  st.1.map Prod.fst = nodes ∧ st.2.map Prod.fst = nodes ∧
  (∀ q cs, lookupA st.1 q = some cs → cs.Nodup) ∧
  (∀ v ∈ nodes, lookupA st.2 v = some ((remIndeg st.1 [] v : Int)))

theorem addEdgeStep_spec (nodes : List String) (st : (List (String × List String)) × List (String × Int))
    (parent child : String) (h : BG nodes st) (hp : parent ∈ nodes) (hc : child ∈ nodes) :
    BG nodes (addEdgeStep st parent child) ∧
    (∀ q c', Edge (addEdgeStep st parent child).1 q c' ↔
      (Edge st.1 q c' ∨ (q = parent ∧ c' = child))) := by
  obtain ⟨hk1, hk2, hnd, hcnt⟩ := h
  obtain ⟨pcs, hpcs⟩ := mem_keys_lookupA (g := st.1) (by rw [hk1]; exact hp)
  rw [addEdgeStep]
  by_cases hin : child ∈ (lookupA st.1 parent).getD []
  · rw [if_pos hin]
    rw [hpcs] at hin
    simp only [Option.getD_some] at hin
    refine ⟨⟨hk1, hk2, hnd, hcnt⟩, ?_⟩
    intro q c'
    constructor
    · exact Or.inl
    · rintro (h | ⟨h1, h2⟩)
      · exact h
      · subst h1; subst h2
        exact ⟨pcs, hpcs, hin⟩
  · rw [if_neg hin]
    rw [hpcs] at hin
    simp only [Option.getD_some] at hin
    have hk1' : (appendChild st.1 parent child).map Prod.fst = nodes := by
      rw [keys_appendChild]; exact hk1
    have hk2' : (incrKey st.2 child).map Prod.fst = nodes := by
      rw [keys_incrKey]; exact hk2
    refine ⟨⟨hk1', hk2', ?_, ?_⟩, ?_⟩
    · intro q cs hq
      by_cases hqp : parent = q
      · subst hqp
        rw [lookupA_appendChild_self, hpcs] at hq
        simp only [Option.map_some'] at hq
        injection hq with hq
        subst hq
        simp only [List.nodup_append, List.nodup_cons]
        refine ⟨hnd parent pcs hpcs, by simp, ?_⟩
        intro a ha hmem
        simp only [List.mem_singleton] at hmem
        subst hmem
        exact hin ha
      · rw [lookupA_appendChild_other st.1 parent child q hqp] at hq
        exact hnd q cs hq
    · intro v hv
      have hrem := remIndeg_appendChild st.1 parent child v (by rw [hk1]; exact hp)
      by_cases hvc : v = child
      · subst hvc
        rw [lookupA_incrKey_self, hcnt v hv, hrem]
        simp
      · rw [lookupA_incrKey_other st.2 child v (fun hcv => hvc hcv.symm), hcnt v hv, hrem]
        rw [if_neg (fun hcv => hvc hcv.symm)]
        simp
    · intro q c'
      by_cases hqp : q = parent
      · subst hqp
        constructor
        · rintro ⟨cs, hcs, hmem⟩
          rw [lookupA_appendChild_self, hpcs] at hcs
          simp only [Option.map_some'] at hcs
          injection hcs with hcs
          subst hcs
          rcases List.mem_append.mp hmem with hmem | hmem
          · exact Or.inl ⟨pcs, hpcs, hmem⟩
          · simp only [List.mem_singleton] at hmem
            exact Or.inr ⟨rfl, hmem⟩
        · rintro (⟨cs, hcs, hmem⟩ | ⟨_, h2⟩)
          · rw [hpcs] at hcs
            injection hcs with hcs
            subst hcs
            exact ⟨pcs ++ [child], by rw [lookupA_appendChild_self, hpcs]; rfl,
              List.mem_append.mpr (Or.inl hmem)⟩
          · refine ⟨pcs ++ [child], by rw [lookupA_appendChild_self, hpcs]; rfl, ?_⟩
            rw [h2]
            simp
      · constructor
        · rintro ⟨cs, hcs, hmem⟩
          rw [lookupA_appendChild_other st.1 parent child q (fun hc2 => hqp hc2.symm)] at hcs
          exact Or.inl ⟨cs, hcs, hmem⟩
        · rintro (⟨cs, hcs, hmem⟩ | ⟨h1, _⟩)
          · refine ⟨cs, ?_, hmem⟩
            rw [lookupA_appendChild_other st.1 parent child q (fun hc2 => hqp hc2.symm)]
            exact hcs
          · exact absurd h1 hqp

theorem foldDeps_spec (nodes : List String) (child : String) (ps : List String) :
    ∀ st, BG nodes st → (∀ p ∈ ps, p ∈ nodes) → child ∈ nodes →
      BG nodes (ps.foldl (fun st p => addEdgeStep st p child) st) ∧
      (∀ q c', Edge (ps.foldl (fun st p => addEdgeStep st p child) st).1 q c' ↔
        (Edge st.1 q c' ∨ (q ∈ ps ∧ c' = child))) := by
  induction ps with
  | nil =>
    intro st h _ _
    refine ⟨h, ?_⟩
    intro q c'
    simp
  | cons p rest ih =>
    intro st h hps hc
    have hp : p ∈ nodes := hps p (List.mem_cons_self _ _)
    obtain ⟨h1, h2⟩ := addEdgeStep_spec nodes st p child h hp hc
    have e : ((p :: rest).foldl (fun st p => addEdgeStep st p child) st)
        = rest.foldl (fun st p => addEdgeStep st p child) (addEdgeStep st p child) := rfl
    rw [e]
    obtain ⟨ih1, ih2⟩ := ih (addEdgeStep st p child) h1
      (fun x hx => hps x (List.mem_cons_of_mem _ hx)) hc
    refine ⟨ih1, ?_⟩
    intro q c'
    rw [ih2 q c', h2 q c']
    simp only [List.mem_cons]
    tauto

theorem lookupA_map_const {α : Type} (nodes : List String) (c : α) (q : String) :
    lookupA (nodes.map (fun n => (n, c))) q = if q ∈ nodes then some c else none := by
  induction nodes with
  | nil => simp
  | cons n rest ih =>
    rw [List.map_cons, lookupA_cons]
    by_cases h : n = q
    · subst h
      rw [if_pos rfl, if_pos (List.mem_cons_self _ _)]
    · rw [if_neg h, ih]
      by_cases hq : q ∈ rest
      · rw [if_pos hq, if_pos (List.mem_cons_of_mem _ hq)]
      · have hnotin : q ∉ n :: rest := by
          intro hc
          rcases List.mem_cons.mp hc with hc | hc
          · exact h hc.symm
          · exact hq hc
        rw [if_neg hq, if_neg hnotin]

theorem keys_map_const {α : Type} (nodes : List String) (c : α) :
    ((nodes.map (fun n => (n, c))).map Prod.fst) = nodes := by
  induction nodes with
  | nil => rfl
  | cons n rest ih => simp [ih]

theorem remIndeg_map_nil (nodes : List String) (v : String) :
    remIndeg (nodes.map (fun n => (n, ([] : List String)))) [] v = 0 := by
  rw [remIndeg_nil_dead, List.map_map]
  apply List.sum_eq_zero
  intro x hx
  simp only [List.mem_map] at hx
  obtain ⟨n, _, hn⟩ := hx
  rw [← hn]
  rfl

theorem buildGraph_spec (traits : List TableTraitsWithName) :
    BG (collectNodes traits) (buildGraph traits) ∧
    (∀ q c', Edge (buildGraph traits).1 q c' ↔ EdgeT traits q c') := by
  obtain ⟨hnd, hmem⟩ := collectNodes_spec traits
  have hinit : BG (collectNodes traits)
      ((collectNodes traits).map (fun n => (n, ([] : List String))),
       (collectNodes traits).map (fun n => (n, (0 : Int)))) := by
    refine ⟨keys_map_const _ _, keys_map_const _ _, ?_, ?_⟩
    · intro q cs hq
      rw [lookupA_map_const] at hq
      by_cases h : q ∈ collectNodes traits
      · rw [if_pos h] at hq
        injection hq with hq
        subst hq
        exact List.nodup_nil
      · rw [if_neg h] at hq
        exact absurd hq (by simp)
    · intro v hv
      rw [lookupA_map_const, if_pos hv, remIndeg_map_nil]
      rfl
  have hinitEdge : ∀ q c',
      ¬ Edge ((collectNodes traits).map (fun n => (n, ([] : List String)))) q c' := by
    rintro q c' ⟨cs, hcs, hmem'⟩
    rw [lookupA_map_const] at hcs
    by_cases h : q ∈ collectNodes traits
    · rw [if_pos h] at hcs
      injection hcs with hcs
      subst hcs
      simp at hmem'
    · rw [if_neg h] at hcs
      exact absurd hcs (by simp)
  have main : ∀ (tr : List TableTraitsWithName) (st : (List (String × List String)) × List (String × Int)),
      BG (collectNodes traits) st →
      (∀ t ∈ tr, t.name ∈ collectNodes traits ∧ ∀ p ∈ t.dependencies, p ∈ collectNodes traits) →
      BG (collectNodes traits)
        (tr.foldl (fun st t => t.dependencies.foldl (fun st p => addEdgeStep st p t.name) st) st) ∧
      (∀ q c', Edge (tr.foldl (fun st t => t.dependencies.foldl (fun st p => addEdgeStep st p t.name) st) st).1 q c' ↔
        (Edge st.1 q c' ∨ EdgeT tr q c')) := by
    intro tr
    induction tr with
    | nil =>
      intro st h _
      refine ⟨h, ?_⟩
      intro q c'
      simp [EdgeT]
    | cons t rest ih =>
      intro st h htr
      obtain ⟨hname, hdeps⟩ := htr t (List.mem_cons_self _ _)
      obtain ⟨f1, f2⟩ := foldDeps_spec (collectNodes traits) t.name t.dependencies st h hdeps hname
      have e : ((t :: rest).foldl (fun st t => t.dependencies.foldl (fun st p => addEdgeStep st p t.name) st) st)
          = rest.foldl (fun st t => t.dependencies.foldl (fun st p => addEdgeStep st p t.name) st)
              (t.dependencies.foldl (fun st p => addEdgeStep st p t.name) st) := rfl
      rw [e]
      obtain ⟨ih1, ih2⟩ := ih (t.dependencies.foldl (fun st p => addEdgeStep st p t.name) st) f1
        (fun u hu => htr u (List.mem_cons_of_mem _ hu))
      refine ⟨ih1, ?_⟩
      intro q c'
      rw [ih2 q c', f2 q c']
      constructor
      · rintro ((h1 | ⟨h1, h2⟩) | h1)
        · exact Or.inl h1
        · exact Or.inr ⟨t, List.mem_cons_self _ _, h2.symm, h1⟩
        · obtain ⟨u, hu, h2, h3⟩ := h1
          exact Or.inr ⟨u, List.mem_cons_of_mem _ hu, h2, h3⟩
      · rintro (h1 | ⟨u, hu, h2, h3⟩)
        · exact Or.inl (Or.inl h1)
        · rcases List.mem_cons.mp hu with hu | hu
          · subst hu
            exact Or.inl (Or.inr ⟨h3, h2.symm⟩)
          · exact Or.inr ⟨u, hu, h2, h3⟩
  obtain ⟨m1, m2⟩ := main traits _ hinit
    (fun t ht => ⟨(hmem t.name).mpr ⟨t, ht, Or.inl rfl⟩,
      fun p hp => (hmem p).mpr ⟨t, ht, Or.inr hp⟩⟩)
  rw [buildGraph]
  refine ⟨m1, ?_⟩
  intro q c'
  rw [m2 q c']
  constructor
  · rintro (h1 | h1)
    · exact absurd h1 (hinitEdge q c')
    · exact h1
  · exact Or.inr

theorem keys_sortedAdj (adj : List (String × List String)) :
    (sortedAdj adj).map Prod.fst = adj.map Prod.fst := by
  rw [sortedAdj, List.map_map]
  rfl

theorem lookupA_sortedAdj (adj : List (String × List String)) (q : String) :
    lookupA (sortedAdj adj) q = (lookupA adj q).map pySorted := by
  induction adj with
  | nil => rfl
  | cons p rest ih =>
    obtain ⟨k, cs⟩ := p
    by_cases h : k = q
    · simp [sortedAdj, lookupA_cons, h]
    · simp only [sortedAdj, List.map_cons, lookupA_cons, if_neg h]
      exact ih

theorem mem_pySorted (l : List String) (x : String) : x ∈ pySorted l ↔ x ∈ l :=
  (List.perm_insertionSort _ l).mem_iff

theorem count_pySorted (l : List String) (x : String) : (pySorted l).count x = l.count x :=
  (List.perm_insertionSort _ l).count_eq x

theorem edge_sortedAdj (adj : List (String × List String)) (q c : String) :
    Edge (sortedAdj adj) q c ↔ Edge adj q c := by
  constructor
  · rintro ⟨cs, hcs, hmem⟩
    rw [lookupA_sortedAdj] at hcs
    cases h : lookupA adj q with
    | none => rw [h] at hcs; simp at hcs
    | some cs0 =>
      rw [h] at hcs
      simp only [Option.map_some'] at hcs
      injection hcs with hcs
      subst hcs
      exact ⟨cs0, h, (mem_pySorted cs0 c).mp hmem⟩
  · rintro ⟨cs, hcs, hmem⟩
    refine ⟨pySorted cs, ?_, (mem_pySorted cs c).mpr hmem⟩
    rw [lookupA_sortedAdj, hcs]
    rfl

theorem remIndeg_sortedAdj_nil (adj : List (String × List String)) (v : String) :
    remIndeg (sortedAdj adj) [] v = remIndeg adj [] v := by
  rw [remIndeg_nil_dead, remIndeg_nil_dead, sortedAdj, List.map_map]
  congr 1
  apply List.map_congr_left
  intro p _
  exact count_pySorted p.2 v

/-- The graph handed to the Kahn loop by dependency.py (adjacency with
lexicographically sorted child lists). -/
def depGS (traits : List TableTraitsWithName) : List (String × List String) :=
  sortedAdj (buildGraph traits).1

theorem depGS_keys (traits : List TableTraitsWithName) :
    keysOf (depGS traits) = collectNodes traits := by
  rw [depGS, keysOf, keys_sortedAdj]
  exact (buildGraph_spec traits).1.1

theorem depGS_edge (traits : List TableTraitsWithName) (q c : String) :
    Edge (depGS traits) q c ↔ EdgeT traits q c := by
  rw [depGS, edge_sortedAdj]
  exact (buildGraph_spec traits).2 q c

theorem depGS_edge_rel (traits : List TableTraitsWithName) :
    Edge (depGS traits) = EdgeT traits := by
  funext q c
  exact propext (depGS_edge traits q c)

theorem depGS_closed (traits : List TableTraitsWithName) : Closed (depGS traits) := by
  intro p hp v hv
  obtain ⟨hnd, hmem⟩ := collectNodes_spec traits
  have hkn : (keysOf (depGS traits)).Nodup := by
    rw [depGS_keys]
    exact hnd
  have hlook : lookupA (depGS traits) p.1 = some p.2 := by
    apply lookupA_of_mem_nodup hkn
    obtain ⟨a, b⟩ := p
    exact hp
  have hedge : Edge (depGS traits) p.1 v := ⟨p.2, hlook, hv⟩
  have := (depGS_edge traits p.1 v).mp hedge
  obtain ⟨t, ht, h1, _⟩ := this
  rw [depGS_keys]
  exact (hmem v).mpr ⟨t, ht, Or.inl h1.symm⟩

/-- The Kahn-loop invariants instantiated at dependency.py's initial state,
for any iteration order `seedOrder` of the node set. -/
theorem depOut_spec (traits : List TableTraitsWithName) (seedOrder : List String)
    (hperm : seedOrder.Perm (collectNodes traits)) :
    (depOut traits seedOrder).Nodup ∧
    (∀ x ∈ depOut traits seedOrder, x ∈ collectNodes traits) ∧
    (∀ v ∈ collectNodes traits, (v ∈ depOut traits seedOrder ↔
        remIndeg (depGS traits) (depOut traits seedOrder) v = 0)) ∧
    PrefixClosed (depGS traits) (depOut traits seedOrder) := by
  obtain ⟨⟨hka, hki, hch, hcnt⟩, _⟩ := buildGraph_spec traits
  obtain ⟨hnd, _⟩ := collectNodes_spec traits
  have hkn : (keysOf (depGS traits)).Nodup := by
    rw [depGS_keys]; exact hnd
  have hseednd : (depSeedQueue traits seedOrder).Nodup := by
    apply List.Nodup.sublist (List.filter_sublist seedOrder)
    exact hperm.nodup_iff.mpr hnd
  have hqmem : ∀ x, x ∈ depSeedQueue traits seedOrder ↔
      (x ∈ collectNodes traits ∧ lookupA (buildGraph traits).2 x = some 0) := by
    intro x
    rw [depSeedQueue, List.mem_filter]
    constructor
    · rintro ⟨h1, h2⟩
      exact ⟨hperm.mem_iff.mp h1, by simpa using h2⟩
    · rintro ⟨h1, h2⟩
      exact ⟨hperm.mem_iff.mpr h1, by simpa using h2⟩
  have hI4 : ∀ v ∈ keysOf (depGS traits),
      lookupA (buildGraph traits).2 v = some ((remIndeg (depGS traits) [] v : Int)) := by
    intro v hv
    rw [depGS_keys] at hv
    rw [hcnt v hv]
    rw [depGS, remIndeg_sortedAdj_nil]
  have hI5 : ∀ v ∈ keysOf (depGS traits),
      (v ∈ ([] : List String) ++ depSeedQueue traits seedOrder ↔
        remIndeg (depGS traits) [] v = 0) := by
    intro v hv
    have hv' := hv
    rw [depGS_keys] at hv'
    rw [List.nil_append, hqmem v]
    rw [hI4 v hv]
    constructor
    · rintro ⟨_, h2⟩
      injection h2 with h2
      exact_mod_cast h2
    · intro h
      refine ⟨hv', ?_⟩
      rw [h]
      rfl
  obtain ⟨C1, C2, C3, C4, _⟩ := kahnLoop_inv (depGS traits) (depGS_closed traits) hkn
    (buildGraph traits).2 (depSeedQueue traits seedOrder) []
    (by simpa using hseednd)
    (by
      intro x hx
      rw [List.nil_append] at hx
      rw [depGS_keys]
      exact ((hqmem x).mp hx).1)
    (by rw [depGS_keys]; exact hki)
    hI4
    hI5
    (by intro i h u; simp at h)
  rw [depGS_keys] at C2 C3
  exact ⟨C1, C2, C3, C4⟩

/-- dependency.py on consistent, acyclic traits: a complete topological
order over the declared universe is returned, whatever the set iteration
order was. -/
theorem determine_order_acyclic (traits : List TableTraitsWithName)
    (initial : List String) (seedOrder : List String)
    (hne : traits ≠ []) (hsame : sameSet (collectNodes traits) initial = true)
    (hperm : seedOrder.Perm (collectNodes traits))
    (hA : ∀ v, ¬ Relation.TransGen (EdgeT traits) v v) :
    determine_table_creation_order traits initial seedOrder = .ok (depOut traits seedOrder) ∧
    (∀ v, v ∈ depOut traits seedOrder ↔ v ∈ collectNodes traits) ∧
    (depOut traits seedOrder).Nodup ∧
    (∀ u v, EdgeT traits u v →
      (depOut traits seedOrder).indexOf u < (depOut traits seedOrder).indexOf v) := by
  obtain ⟨hnd, hsub, hiff, hpc⟩ := depOut_spec traits seedOrder hperm
  have hndN := (collectNodes_spec traits).1
  have hkn : (keysOf (depGS traits)).Nodup := by
    rw [depGS_keys]; exact hndN
  have hA' : ∀ v, ¬ Relation.TransGen (Edge (depGS traits)) v v := by
    rw [depGS_edge_rel]
    exact hA
  have hall : ∀ v, v ∈ depOut traits seedOrder ↔ v ∈ collectNodes traits := by
    intro v
    constructor
    · exact hsub v
    · intro hv
      by_contra hvout
      have hiff' : ∀ v ∈ keysOf (depGS traits),
          (v ∈ depOut traits seedOrder ↔
            remIndeg (depGS traits) (depOut traits seedOrder) v = 0) := by
        rw [depGS_keys]
        exact hiff
      obtain ⟨c, hcyc, _⟩ := blocked_of_not_mem_out (depGS traits) hkn
        (depOut traits seedOrder) hiff' (by rw [depGS_keys]; exact hv) hvout
      exact hA' c hcyc
  have hlen : (depOut traits seedOrder).length = (collectNodes traits).length :=
    length_eq_of_same_mem _ _ hnd hndN hall
  refine ⟨?_, hall, hnd, ?_⟩
  · rw [determine_table_creation_order, if_neg hne, if_pos hsame, if_pos hlen]
  · intro u v hedge
    have hedge' : Edge (depGS traits) u v := (depGS_edge traits u v).mpr hedge
    have hv : v ∈ depOut traits seedOrder := by
      rw [hall]
      obtain ⟨t, ht, h1, _⟩ := hedge
      exact ((collectNodes_spec traits).2 v).mpr ⟨t, ht, Or.inl h1.symm⟩
    exact (ordered_edge_index (depGS traits) (depOut traits seedOrder) hpc hedge' hv).2

/-- dependency.py on consistent traits with a dependency cycle: a
`ValueError` is raised naming exactly the tables that could not be ordered,
and these are exactly the nodes on or downstream of a cycle. -/
theorem determine_order_cyclic (traits : List TableTraitsWithName)
    (initial : List String) (seedOrder : List String)
    (hne : traits ≠ []) (hsame : sameSet (collectNodes traits) initial = true)
    (hperm : seedOrder.Perm (collectNodes traits))
    (c0 : String) (hcyc0 : Relation.TransGen (EdgeT traits) c0 c0) :
    ∃ missing, determine_table_creation_order traits initial seedOrder
        = .error (.cyclic missing) ∧
      missing ≠ [] ∧
      (∀ x, x ∈ missing ↔ (x ∈ collectNodes traits ∧ x ∉ depOut traits seedOrder)) ∧
      (∀ x ∈ collectNodes traits,
        (x ∈ missing ↔ ∃ c, Relation.TransGen (EdgeT traits) c c ∧
          Relation.ReflTransGen (EdgeT traits) c x)) := by
  obtain ⟨hnd, hsub, hiff, hpc⟩ := depOut_spec traits seedOrder hperm
  have hndN := (collectNodes_spec traits).1
  have hkn : (keysOf (depGS traits)).Nodup := by
    rw [depGS_keys]; exact hndN
  have hcyc0' : Relation.TransGen (Edge (depGS traits)) c0 c0 := by
    rw [depGS_edge_rel]
    exact hcyc0
  have hc0k : c0 ∈ collectNodes traits := by
    have := transGen_source_mem hcyc0'
    rwa [depGS_keys] at this
  have hc0out : c0 ∉ depOut traits seedOrder :=
    no_cycle_in_out (depGS traits) (depOut traits seedOrder) hpc hcyc0'
  have hlen : (depOut traits seedOrder).length < (collectNodes traits).length :=
    length_lt_of_missing _ _ hnd hndN hsub c0 hc0k hc0out
  have hiff' : ∀ v ∈ keysOf (depGS traits),
      (v ∈ depOut traits seedOrder ↔
        remIndeg (depGS traits) (depOut traits seedOrder) v = 0) := by
    rw [depGS_keys]
    exact hiff
  refine ⟨(collectNodes traits).filter
      (fun n => decide (n ∉ depOut traits seedOrder)), ?_, ?_, ?_, ?_⟩
  · rw [determine_table_creation_order, if_neg hne, if_pos hsame, if_neg (by omega)]
  · intro hcon
    have : c0 ∈ (collectNodes traits).filter
        (fun n => decide (n ∉ depOut traits seedOrder)) := by
      rw [List.mem_filter]
      exact ⟨hc0k, by simpa using hc0out⟩
    rw [hcon] at this
    simp at this
  · intro x
    rw [List.mem_filter]
    constructor
    · rintro ⟨h1, h2⟩
      exact ⟨h1, by simpa using h2⟩
    · rintro ⟨h1, h2⟩
      exact ⟨h1, by simpa using h2⟩
  · intro x hx
    rw [List.mem_filter]
    constructor
    · rintro ⟨_, h2⟩
      have h2' : x ∉ depOut traits seedOrder := by simpa using h2
      have := blocked_of_not_mem_out (depGS traits) hkn (depOut traits seedOrder)
        hiff' (by rw [depGS_keys]; exact hx) h2'
      rw [Blocked, depGS_edge_rel] at this
      exact this
    · intro hb
      have hb' : Blocked (depGS traits) x := by
        rw [Blocked, depGS_edge_rel]
        exact hb
      have := not_mem_out_of_blocked (depGS traits) (depOut traits seedOrder) hpc hb'
      refine ⟨hx, by simpa using this⟩

/-- dependency.py with an empty traits list (lines 28-36): the empty order
when the initial table list is also empty, otherwise an immediate
`ValueError` before any ordering is attempted. -/
theorem determine_order_empty_traits (initial seedOrder : List String) :
    (determine_table_creation_order [] [] seedOrder = .ok []) ∧
    (initial ≠ [] →
      determine_table_creation_order [] initial seedOrder = .error .emptyTraits) := by
  constructor
  · rfl
  · intro hne
    rw [determine_table_creation_order, if_pos rfl, if_neg hne]

/-! ## Helper facts for the claim statements -/

theorem transGen_rank_lt {α : Type} (r : α → α → Prop) (f : α → Nat)
    (h : ∀ u v, r u v → f u < f v) {a b : α}
    (ht : Relation.TransGen r a b) : f a < f b := by
  induction ht with
  | single hr => exact h _ _ hr
  | tail _ hr ih => exact lt_trans ih (h _ _ hr)

theorem no_transGen_self_of_rank {α : Type} (r : α → α → Prop) (f : α → Nat)
    (h : ∀ u v, r u v → f u < f v) : ∀ v, ¬ Relation.TransGen r v v := by
  intro v hv
  exact lt_irrefl _ (transGen_rank_lt r f h hv)

theorem kahnLoop_no_children (g : List (String × List String)) (indeg : List (String × Int)) :
    ∀ (queue order : List String), (∀ v ∈ queue, (lookupA g v).getD [] = []) →
      kahnLoop g indeg queue order = order ++ queue := by
  intro queue
  induction queue with
  | nil =>
    intro order _
    rw [kahnLoop_nil, List.append_nil]
  | cons v qs ih =>
    intro order h
    rw [kahnLoop_cons, h v (List.mem_cons_self _ _)]
    have e : processChildren indeg qs [] = (indeg, qs) := rfl
    rw [e]
    rw [ih (order ++ [v]) (fun x hx => h x (List.mem_cons_of_mem _ hx))]
    simp

theorem initIndeg_edgeless (names : List String) :
    initIndeg (names.map (fun n => (n, ([] : List String)))) =
      (names.map (fun n => (n, ([] : List String)))).map (fun p => (p.1, (0 : Int))) := by
  rw [initIndeg]
  have : ∀ (m : List (String × Int)),
      (names.map (fun n => (n, ([] : List String)))).foldl (fun m p => p.2.foldl incrKey m) m
        = m := by
    intro m
    induction names generalizing m with
    | nil => rfl
    | cons n rest ih => exact ih m
  exact this _

/-- Substring containment, as Python's `in` operator on strings. -/
def containsL (needle : List Char) : List Char → Bool
  | [] => needle.isEmpty
  | c :: t => needle.isPrefixOf (c :: t) || containsL needle t

def containsSub (hay needle : String) : Bool :=
  containsL needle.data hay.data

/-! ## Claims C1, C5, C6, C10 — the scheduler -/

/-- C1: For every acyclic dependency graph, the scheduler
(`get_table_creation_order`, and `determine_table_creation_order` on
consistent traits) returns an order that contains every node of the graph
exactly once and in which, for every edge parent→child, the parent appears
strictly before the child. -/
theorem claim_C1_topological_order :
    (∀ (g : List (String × List String)), Closed g → (keysOf g).Nodup → Acyclic g →
      ∃ out, get_table_creation_order g = .ok out ∧
        (∀ v, v ∈ out ↔ v ∈ keysOf g) ∧ out.Nodup ∧
        (∀ u v, Edge g u v → out.indexOf u < out.indexOf v)) ∧
    (∀ (traits : List TableTraitsWithName) (initial seedOrder : List String),
      traits ≠ [] → sameSet (collectNodes traits) initial = true →
      seedOrder.Perm (collectNodes traits) →
      (∀ v, ¬ Relation.TransGen (EdgeT traits) v v) →
      ∃ out, determine_table_creation_order traits initial seedOrder = .ok out ∧
        (∀ v, v ∈ out ↔ v ∈ collectNodes traits) ∧ out.Nodup ∧
        (∀ u v, EdgeT traits u v → out.indexOf u < out.indexOf v)) := by
  constructor
  · intro g hC hN hA
    obtain ⟨h1, h2, h3, h4⟩ := get_order_acyclic g hC hN hA
    exact ⟨kahnOut g, h1, h2, h3, h4⟩
  · intro traits initial seedOrder hne hsame hperm hA
    obtain ⟨h1, h2, h3, h4⟩ := determine_order_acyclic traits initial seedOrder hne hsame hperm hA
    exact ⟨depOut traits seedOrder, h1, h2, h3, h4⟩

theorem acyclic_pair_graph : Acyclic [("a", ["b"]), ("b", [])] := by
  apply no_transGen_self_of_rank _ (fun s => if s = "b" then 1 else 0)
  rintro u v ⟨cs, hl, hm⟩
  have hu : u ∈ keysOf [("a", ["b"]), ("b", [])] := edge_source_mem ⟨cs, hl, hm⟩
  have hu' : u = "a" ∨ u = "b" := by
    simpa [keysOf] using hu
  rcases hu' with hu' | hu'
  · subst hu'
    have : cs = ["b"] := by
      have : lookupA [("a", ["b"]), ("b", [])] "a" = some ["b"] := rfl
      rw [this] at hl
      injection hl with hl
      exact hl.symm
    subst this
    have : v = "b" := by simpa using hm
    subst this
    decide
  · subst hu'
    have : cs = [] := by
      have : lookupA [("a", ["b"]), ("b", [])] "b" = some [] := rfl
      rw [this] at hl
      injection hl with hl
      exact hl.symm
    subst this
    simp at hm

theorem acyclicT_pair_traits :
    ∀ v, ¬ Relation.TransGen
      (EdgeT [⟨"tracks", ["artists"]⟩, ⟨"artists", []⟩]) v v := by
  apply no_transGen_self_of_rank _ (fun s => if s = "tracks" then 1 else 0)
  rintro u v ⟨t, ht, hname, hdep⟩
  rcases List.mem_cons.mp ht with ht | ht
  · subst ht
    simp only at hname hdep
    have hu : u = "artists" := by simpa using hdep
    subst hu
    subst hname
    decide
  · rcases List.mem_cons.mp ht with ht | ht
    · subst ht
      simp at hdep
    · simp at ht

theorem eval_kahnOut_ba : kahnOut [("b", []), ("a", [])] = ["b", "a"] := by
  rw [kahnOut]
  rw [show kahnSeed [("b", []), ("a", [])] = ["b", "a"] from rfl]
  rw [kahnLoop_cons]
  rw [show processChildren (initIndeg [("b", []), ("a", [])]) ["a"]
      ((lookupA [("b", []), ("a", [])] "b").getD [])
      = (initIndeg [("b", []), ("a", [])], ["a"]) from rfl]
  rw [kahnLoop_cons]
  rw [show processChildren (initIndeg [("b", []), ("a", [])]) []
      ((lookupA [("b", []), ("a", [])] "a").getD [])
      = (initIndeg [("b", []), ("a", [])], []) from rfl]
  rw [kahnLoop_nil]
  rfl

theorem eval_kahnOut_zzz : kahnOut [("zzz", ["zzz"])] = [] := by
  rw [kahnOut]
  rw [show kahnSeed [("zzz", ["zzz"])] = [] from rfl]
  rw [kahnLoop_nil]

theorem claim_C1_topological_order_witness :
    (∃ out, get_table_creation_order [("a", ["b"]), ("b", [])] = .ok out ∧
      (∀ v, v ∈ out ↔ v ∈ keysOf [("a", ["b"]), ("b", [])]) ∧ out.Nodup ∧
      (∀ u v, Edge [("a", ["b"]), ("b", [])] u v → out.indexOf u < out.indexOf v)) ∧
    (∃ out, determine_table_creation_order [⟨"tracks", ["artists"]⟩, ⟨"artists", []⟩]
        ["tracks", "artists"] ["tracks", "artists"] = .ok out ∧
      (∀ v, v ∈ out ↔ v ∈ collectNodes [⟨"tracks", ["artists"]⟩, ⟨"artists", []⟩]) ∧
      out.Nodup ∧
      (∀ u v, EdgeT [⟨"tracks", ["artists"]⟩, ⟨"artists", []⟩] u v →
        out.indexOf u < out.indexOf v)) :=
  ⟨claim_C1_topological_order.1 [("a", ["b"]), ("b", [])]
      (by unfold Closed keysOf; decide) (by unfold keysOf; decide) acyclic_pair_graph,
   claim_C1_topological_order.2 [⟨"tracks", ["artists"]⟩, ⟨"artists", []⟩]
      ["tracks", "artists"] ["tracks", "artists"]
      (by decide) (by decide) (by decide) acyclicT_pair_traits⟩

/-- C5 (counterexample): the scheduler does not process simultaneously
eligible nodes in ascending lexicographic order: on the two-node edgeless
graph listed as `b, a` both nodes are eligible at once, lexicographic
processing would emit `["a", "b"]`, but the code emits the dict insertion
order `["b", "a"]`. -/
theorem claim_C5_counterexample :
    get_table_creation_order [("b", []), ("a", [])] = .ok ["b", "a"] ∧
    get_table_creation_order [("b", []), ("a", [])] ≠ .ok ["a", "b"] := by
  have e : get_table_creation_order [("b", []), ("a", [])] = .ok ["b", "a"] := by
    rw [get_table_creation_order, eval_kahnOut_ba]
    rfl
  refine ⟨e, ?_⟩
  rw [e]
  simp

/-- C5 (amended): when several nodes are simultaneously eligible,
`get_table_creation_order` processes them in the insertion order of the
graph mapping (FIFO), not lexicographically: an edgeless graph is emitted
exactly in mapping key order. -/
theorem claim_C5_amended_insertion_order (names : List String) :
    get_table_creation_order (names.map (fun n => (n, ([] : List String))))
      = .ok names := by
  have hinit := initIndeg_edgeless names
  have hkeys0 : ∀ (l : List String),
      ((l.map (fun n => (n, ([] : List String)))).map
        (fun p => (p.1, (0 : Int)))).map Prod.fst = l := by
    intro l
    induction l with
    | nil => rfl
    | cons n rest ih =>
      simp only [List.map_map] at ih
      simpa using ih
  have hkeys : (initIndeg (names.map (fun n => (n, ([] : List String))))).map Prod.fst
      = names := by
    rw [hinit]
    exact hkeys0 names
  have hseed : kahnSeed (names.map (fun n => (n, ([] : List String)))) = names := by
    rw [kahnSeed, hinit]
    have : ∀ (l : List (String × List String)),
        ((l.map (fun p => (p.1, (0 : Int)))).filter (fun p => decide (p.2 = 0))).map Prod.fst
          = l.map Prod.fst := by
      intro l
      induction l with
      | nil => rfl
      | cons p rest ih =>
        simp [List.filter_cons, ih]
    rw [this, keys_map_const]
  have hchild : ∀ v ∈ names,
      (lookupA (names.map (fun n => (n, ([] : List String)))) v).getD [] = [] := by
    intro v hv
    rw [lookupA_map_const, if_pos hv]
    rfl
  have hout : kahnOut (names.map (fun n => (n, ([] : List String)))) = names := by
    rw [kahnOut, hseed, kahnLoop_no_children _ _ names [] hchild, List.nil_append]
  have hlen : (kahnOut (names.map (fun n => (n, ([] : List String))))).length
      = (initIndeg (names.map (fun n => (n, ([] : List String))))).length := by
    rw [hout]
    have := congrArg List.length hkeys
    simpa using this.symm
  rw [get_table_creation_order, if_pos hlen, hout]

/-- C6 (counterexample): on the one-node self-cycle graph `zzz → zzz` the
only table that could not be ordered is `zzz`, yet `get_table_creation_order`
raises a fixed message that does not name it: the scheduler's cycle error
does not name exactly the unordered tables. -/
theorem claim_C6_counterexample :
    get_table_creation_order [("zzz", ["zzz"])] =
      .error "Graph has at least one cycle, topological sort not possible." ∧
    containsSub "Graph has at least one cycle, topological sort not possible." "zzz"
      = false := by
  constructor
  · rw [get_table_creation_order, eval_kahnOut_zzz]
    rfl
  · rfl

/-- C6 (amended): for every graph containing a cycle the scheduler raises
an error and returns no partial order; `determine_table_creation_order`'s
`ValueError` names exactly the unordered tables — the nodes on or downstream
of a cycle — while `get_table_creation_order` raises a fixed message naming
none of them; on acyclic graphs no error is raised. -/
theorem claim_C6_amended_cycle_error :
    (∀ (traits : List TableTraitsWithName) (initial seedOrder : List String),
      traits ≠ [] → sameSet (collectNodes traits) initial = true →
      seedOrder.Perm (collectNodes traits) →
      ∀ c0, Relation.TransGen (EdgeT traits) c0 c0 →
      ∃ missing, determine_table_creation_order traits initial seedOrder
          = .error (.cyclic missing) ∧ missing ≠ [] ∧
        (∀ x ∈ collectNodes traits,
          (x ∈ missing ↔ ∃ c, Relation.TransGen (EdgeT traits) c c ∧
            Relation.ReflTransGen (EdgeT traits) c x))) ∧
    (∀ (traits : List TableTraitsWithName) (initial seedOrder : List String),
      traits ≠ [] → sameSet (collectNodes traits) initial = true →
      seedOrder.Perm (collectNodes traits) →
      (∀ v, ¬ Relation.TransGen (EdgeT traits) v v) →
      ∃ out, determine_table_creation_order traits initial seedOrder = .ok out) ∧
    (∀ (g : List (String × List String)), Closed g → (keysOf g).Nodup →
      (∀ c, Relation.TransGen (Edge g) c c →
        get_table_creation_order g =
          .error "Graph has at least one cycle, topological sort not possible.") ∧
      (Acyclic g → ∃ out, get_table_creation_order g = .ok out)) := by
  refine ⟨?_, ?_, ?_⟩
  · intro traits initial seedOrder hne hsame hperm c0 hcyc
    obtain ⟨missing, h1, h2, _, h4⟩ :=
      determine_order_cyclic traits initial seedOrder hne hsame hperm c0 hcyc
    exact ⟨missing, h1, h2, h4⟩
  · intro traits initial seedOrder hne hsame hperm hA
    obtain ⟨h1, _⟩ := determine_order_acyclic traits initial seedOrder hne hsame hperm hA
    exact ⟨depOut traits seedOrder, h1⟩
  · intro g hC hN
    constructor
    · intro c hcyc
      exact get_order_cyclic g hC hN c hcyc
    · intro hA
      obtain ⟨h1, _⟩ := get_order_acyclic g hC hN hA
      exact ⟨kahnOut g, h1⟩

theorem cyclicT_self_trait :
    Relation.TransGen (EdgeT [⟨"aa", ["aa"]⟩]) "aa" "aa" :=
  Relation.TransGen.single ⟨⟨"aa", ["aa"]⟩, List.mem_cons_self _ _, rfl, by simp⟩

theorem claim_C6_amended_cycle_error_witness :
    ∃ missing, determine_table_creation_order [⟨"aa", ["aa"]⟩] ["aa"] ["aa"]
        = .error (.cyclic missing) ∧ missing ≠ [] ∧
      (∀ x ∈ collectNodes [⟨"aa", ["aa"]⟩],
        (x ∈ missing ↔ ∃ c, Relation.TransGen (EdgeT [⟨"aa", ["aa"]⟩]) c c ∧
          Relation.ReflTransGen (EdgeT [⟨"aa", ["aa"]⟩]) c x)) :=
  claim_C6_amended_cycle_error.1 [⟨"aa", ["aa"]⟩] ["aa"] ["aa"]
    (by decide) (by decide) (by decide) "aa" cyclicT_self_trait

/-- C10: `determine_table_creation_order` called with an empty table-traits
list returns the empty order when the initial table list is also empty, and
raises `ValueError` (before attempting any ordering) when the initial table
list is non-empty. -/
theorem claim_C10_empty_traits (initial seedOrder : List String) :
    (determine_table_creation_order [] [] seedOrder = .ok []) ∧
    (initial ≠ [] →
      determine_table_creation_order [] initial seedOrder = .error .emptyTraits) :=
  determine_order_empty_traits initial seedOrder

theorem claim_C10_empty_traits_witness :
    (determine_table_creation_order [] [] [] = .ok []) ∧
    (determine_table_creation_order [] ["t"] [] = .error .emptyTraits) :=
  ⟨(claim_C10_empty_traits [] []).1,
   (claim_C10_empty_traits ["t"] []).2 (by decide)⟩

/-! ## load.py — the referential loader

SQL values are `None` / numbers / strings (`Value`); a row is a dict from
column name to value.  The database engine (SQLAlchemy connection) is an
external collaborator: the loader is parametrised by `EngineOps`, and
`realEngine` below is a concrete transactional engine with unique-constraint
and numeric-type enforcement instantiated for the concrete theorems. -/

inductive Value
  | vNull
  | vInt (n : Int)
  | vStr (s : String)
deriving Repr, DecidableEq

/-- Python truthiness of a cell value (`not found_parent_val`). -/
def isFalsy : Value → Bool
  | .vNull => true
  | .vInt n => decide (n = 0)
  | .vStr s => decide (s = "")

/-- Python `str(...)` of a cell value. -/
def pyStr : Value → String
  | .vNull => "None"
  | .vInt n => toString n
  | .vStr s => s

abbrev Row := List (String × Value)

/-- A table's rows keyed by table name: the visible database state. -/
abbrev Db := List (String × List Row)

/-- SQLAlchemy's exception classes relevant to load.py's handlers. -/
inductive DbError
  | dataErr (msg : String)
  | integrityErr (msg : String)
  | otherErr (msg : String)
deriving Repr, DecidableEq

/-- `str(e)`. -/
def errMsg : DbError → String
  | .dataErr m => m
  | .integrityErr m => m
  | .otherErr m => m

/-- `except (exc.DataError, exc.IntegrityError)` matches these two. -/
def isRetryable : DbError → Bool
  | .dataErr _ => true
  | .integrityErr _ => true
  | .otherErr _ => false

inductive CType
  | num
  | str
deriving Repr, DecidableEq

/-- The column facts load.py reads from the reflected metadata.  `unique`
covers both `c.unique` and membership in a single-column `UniqueConstraint`
(`get_single_unique_cols` merges the two). -/
structure Column where
  name : String
  ctype : CType
  autoincrement : Bool
  primary_key : Bool
  unique : Bool
  fkParent : Option (String × String)
deriving Repr, DecidableEq

structure TableSchema where
  name : String
  columns : List Column
deriving Repr, DecidableEq

structure Dataframe where
  columns : List String
  rows : List Row
deriving Repr, DecidableEq

/-- `row_data.get(csv_col)` — `None` when absent. -/
def rowGet (row : Row) (c : String) : Value :=
  (lookupA row c).getD .vNull

/-- `row[c]` — raises `KeyError` when absent (caught by the generic
`except Exception` handler of the row loop). -/
def rowGetE (row : Row) (c : String) : Except DbError Value :=
  match lookupA row c with
  | some v => .ok v
  | none => .error (.otherErr ("KeyError: " ++ c))

/-- Python dict assignment `d[k] = v` (update or append). -/
def setVal (row : Row) (k : String) (v : Value) : Row :=
  if (lookupA row k).isSome then
    row.map (fun p => if p.1 = k then (k, v) else p)
  else row ++ [(k, v)]

/-- The database engine as seen by load.py: parameterised so that the
rollback/retry theorems hold for every engine behaviour. `insertRow`
returns the new state and `inserted_primary_key[0]`; `selectOne` is
`connection.execute(select(...).where(col == val)).fetchone()`. -/
structure EngineOps where
  insertRow : Db → String → Row → Except DbError (Db × Option Value)
  selectOne : Db → String → String → Value → Except DbError (Option Row)

def findTable (schemas : List TableSchema) (t : String) : Option TableSchema :=
  schemas.find? (fun s => decide (s.name = t))

/-- `map_dict.get(col_name, col_name)`. -/
def map_get (mapd : List (String × String)) (k : String) : String :=
  (lookupA mapd k).getD k

/-- load.py:28-43 — the single-column unique columns of a table (modelled by
the `unique` flag, see `Column`). -/
def get_single_unique_cols (t : TableSchema) : List Column :=
  t.columns.filter (fun c => c.unique)

/-- The entry of `table_lookup_info` for one table (load.py:45-70). -/
structure TableInfo where
  table_obj : TableSchema
  pk_cols : List Column
  unique_cols_in_csv : List Column
  col_map : List (String × String)
deriving Repr, DecidableEq

/-- load.py:45-70.  `metadata.tables[tbl_name]` is modelled with a default
empty table on a missing name; the theorems about concrete runs always
supply the schema. -/
def buildInfo (schemas : List TableSchema) (dfCols : List String)
    (mapd : List (String × String)) (tbl_name : String) : TableInfo :=
  let t := (findTable schemas tbl_name).getD ⟨tbl_name, []⟩
  { table_obj := t
  , pk_cols := t.columns.filter (fun c => c.primary_key)
  , unique_cols_in_csv := (get_single_unique_cols t).filter
      (fun c => decide (map_get mapd c.name ∈ dfCols))
  , col_map := (t.columns.filter (fun c => !(c.autoincrement && c.primary_key))).map
      (fun c => (c.name, map_get mapd c.name)) }

/-- `table_lookup_info[t]` — a `KeyError` (e.g. a foreign key pointing at a
table outside `table_order`) surfaces as an unexpected error. -/
def lookupInfoE (infoMap : List (String × TableInfo)) (t : String) :
    Except DbError TableInfo :=
  match lookupA infoMap t with
  | some i => .ok i
  | none => .error (.otherErr ("KeyError: " ++ t))

/-- `cleaned_row[csv_col] if cleaned_row else row_data.get(csv_col)`
(load.py:93-98 and the analogous reads): the cleaned overlay is indexed
(can raise `KeyError`), the original row uses `.get`. -/
def readField (row : Row) (cleaned : Option Row) (csv : String) : Except DbError Value :=
  match cleaned with
  | some cr => rowGetE cr csv
  | none => .ok (rowGet row csv)

/-- load.py:148-162 — scan the parent's unique-in-csv columns for the first
non-null row value. -/
def scanUniques (row : Row) (cleaned : Option Row) (mapd : List (String × String)) :
    List Column → Except DbError (Option (Value × Column))
  | [] => .ok none
  | c :: rest => do
    let v ← readField row cleaned (map_get mapd c.name)
    if v ≠ .vNull then .ok (some (v, c))
    else scanUniques row cleaned mapd rest

/-- load.py:216-223 — scan the child's own unique columns inside
`insert_data` for the first non-null value. -/
def scanChildUniques (ins : Row) : List Column → Except DbError (Option (Value × String))
  | [] => .ok none
  | c :: rest => do
    let v ← rowGetE ins c.name
    if v ≠ .vNull then .ok (some (v, c.name))
    else scanChildUniques ins rest

/-- load.py:136-145 — the parent's primary key read directly from the CSV
when it is a mapped dataframe column. -/
def fkStep1 (df : Dataframe) (mapd : List (String × String)) (row : Row)
    (cleaned : Option Row) (parent_info : TableInfo) :
    Except DbError (Value × Option Column) :=
  match parent_info.pk_cols with
  | [ppk] =>
    if map_get mapd ppk.name ∈ df.columns then do
      let v ← readField row cleaned (map_get mapd ppk.name)
      pure (v, some ppk)
    else pure (.vNull, none)
  | _ => pure (.vNull, none)

/-- load.py:147-162 — fall back to the parent's first non-null
single-column unique value. -/
def fkStep2 (row : Row) (cleaned : Option Row) (mapd : List (String × String))
    (parent_info : TableInfo) (step1 : Value × Option Column) :
    Except DbError (Value × Option Column) :=
  if isFalsy step1.1 && !parent_info.unique_cols_in_csv.isEmpty then do
    match ← scanUniques row cleaned mapd parent_info.unique_cols_in_csv with
    | some (v, c) => pure (v, some c)
    | none => pure step1
  else pure step1

/-- load.py:164-197 — look the parent row up by the matched column and
insert it on a miss; the result is the parent's primary-key value and the
possibly-extended state. -/
def parentLookupOrInsert (ops : EngineOps) (mapd : List (String × String))
    (row : Row) (cleaned : Option Row) (parent_info : TableInfo)
    (parent_table_name : String) (mcol : Column) (fval : Value) (db : Db) :
    Except DbError (Value × Db) := do
  let existing ← ops.selectOne db parent_table_name mcol.name fval
  match existing with
  | some prow =>
    match parent_info.pk_cols with
    | [ppk] => do
      let v ← rowGetE prow ppk.name
      pure (v, db)
    | _ => pure (.vNull, db)
  | none => do
    let parent_insert_data ←
      (parent_info.table_obj.columns.filter
          (fun pc => !(pc.autoincrement && pc.primary_key))).foldlM
        (fun (acc : Row) pc => do
          let v ← readField row cleaned (map_get mapd pc.name)
          pure (acc ++ [(pc.name, v)])) []
    let pd ← ops.insertRow db parent_table_name parent_insert_data
    match pd.2 with
    | some v => pure (v, pd.1)
    | none => pure (.vNull, pd.1)

/-- load.py:106-201 — resolve one foreign-key column: if the candidate value
is null, look the parent up by primary key from the CSV or by a unique
column, inserting the parent row on a miss, and write the resolved primary
key into `insert_data`. -/
def resolveFk (ops : EngineOps) (df : Dataframe) (mapd : List (String × String))
    (infoMap : List (String × TableInfo)) (row : Row) (cleaned : Option Row)
    (col : Column) (parent_table_name _parent_pk_colname : String)
    (st : Row × Db) : Except DbError (Row × Db) := do
  let cur ← rowGetE st.1 col.name
  if cur ≠ .vNull then
    -- the CSV provided a value for the FK column: leave it as-is
    .ok st
  else do
    let parent_info ← lookupInfoE infoMap parent_table_name
    let step1 ← fkStep1 df mapd row cleaned parent_info
    let step2 ← fkStep2 row cleaned mapd parent_info step1
    match step2.2, step2.1 with
    | some mcol, fval =>
      if fval ≠ .vNull then do
        let pd ← parentLookupOrInsert ops mapd row cleaned parent_info
          parent_table_name mcol fval st.2
        -- write the resolved key into the child's column (load.py:199-201)
        if pd.1 ≠ .vNull then .ok (setVal st.1 col.name pd.1, pd.2)
        else .ok (st.1, pd.2)
      else .ok st
    | none, _ => .ok st

/-- load.py:207-223 — pick the column and value by which the row itself may
match an existing stored row: by primary key from the CSV, else by the
first non-null single-column unique value. -/
def childMatch (df : Dataframe) (mapd : List (String × String)) (info : TableInfo)
    (ins : Row) : Except DbError (Option String × Value) := do
  let m1 : Option String × Value ←
    match info.pk_cols with
    | [child_pk] =>
      if map_get mapd child_pk.name ∈ df.columns then do
        let v ← rowGetE ins child_pk.name
        pure (some child_pk.name, v)
      else pure (none, .vNull)
    | _ => pure (none, .vNull)
  if (m1.1.isNone || decide (m1.2 = .vNull)) && !info.unique_cols_in_csv.isEmpty then do
    match ← scanChildUniques ins info.unique_cols_in_csv with
    | some (v, name) => pure (some name, v)
    | none => pure m1
  else pure m1

/-- load.py:225-241 — look the row up by the matched column and insert it
unless an existing row matched. -/
def childLookupOrInsert (ops : EngineOps) (tbl_name : String) (ins : Row)
    (m : Option String × Value) (db : Db) : Except DbError Db :=
  match m.1, m.2 with
  | some mb, mv =>
    if mv ≠ .vNull then do
      let existing ← ops.selectOne db tbl_name mb mv
      match existing with
      | some _ => .ok db
      | none => do
        let pd ← ops.insertRow db tbl_name ins
        .ok pd.1
    else do
      let pd ← ops.insertRow db tbl_name ins
      .ok pd.1
  | none, _ => do
    let pd ← ops.insertRow db tbl_name ins
    .ok pd.1

/-- load.py:83-241 — process one table for the current row inside the row's
transaction: build `insert_data`, resolve foreign keys, then lookup-or-insert
the row itself. -/
def processTable (ops : EngineOps) (df : Dataframe) (mapd : List (String × String))
    (infoMap : List (String × TableInfo)) (row : Row) (cleaned : Option Row)
    (db : Db) (tbl_name : String) : Except DbError Db := do
  let info ← lookupInfoE infoMap tbl_name
  -- build the candidate insert values (load.py:90-99)
  let ins0 ← info.col_map.foldlM
    (fun (acc : Row) p => do
      let v ← readField row cleaned p.2
      pure (acc ++ [(p.1, v)])) []
  -- resolve every foreign-key column (load.py:106-201)
  let st ← info.table_obj.columns.foldlM
    (fun (st : Row × Db) col =>
      match col.fkParent with
      | none => .ok st
      | some (pt, ppc) => resolveFk ops df mapd infoMap row cleaned col pt ppc st)
    (ins0, db)
  let m ← childMatch df mapd info st.1
  childLookupOrInsert ops tbl_name st.1 m st.2

/-- One full attempt at a row: every table of `table_order` inside one
transaction (load.py:80-243). -/
def attemptRow (ops : EngineOps) (df : Dataframe) (mapd : List (String × String))
    (infoMap : List (String × TableInfo)) (table_order : List String)
    (row : Row) (cleaned : Option Row) (db : Db) : Except DbError Db :=
  table_order.foldlM (fun db t => processTable ops df mapd infoMap row cleaned db t) db

/-! ### Cleaning policy (load.py:266-284) -/

/-- Whitespace strip, as Python `str.strip()` (ASCII whitespace). -/
def pyStrip (s : String) : String :=
  String.mk (((s.data.dropWhile Char.isWhitespace).reverse.dropWhile Char.isWhitespace).reverse)

/-- Python `value.replace(",", "")`. -/
def replaceCommas (s : String) : String :=
  String.mk (s.data.filter (fun c => !(c = ',')))

/-- `\w` of the regex `column "(\w+)"`. -/
def isWordChar (c : Char) : Bool :=
  c.isAlphanum || c = '_'

/-- Try the pattern `column "(\w+)"` anchored at the start of `l`. -/
def reColumnHere (l : List Char) : Option String :=
  if "column \"".data.isPrefixOf l then
    let rest := l.drop 8
    let w := rest.takeWhile isWordChar
    if !w.isEmpty && decide ((rest.drop w.length).head? = some '"') then
      some (String.mk w)
    else none
  else none

/-- `re.search(r'column "(\w+)"', error_msg)` — first match anywhere. -/
def reColumnSearch : List Char → Option String
  | [] => none
  | c :: t =>
    match reColumnHere (c :: t) with
    | some col => some col
    | none => reColumnSearch t

/-- load.py `clean_row_data(row_data, error_msg)`: on a numeric-syntax error
strip commas and surrounding whitespace from every string value; on a
"value too long" error naming a column present in the row, truncate that
column's (stringified) value to 255 characters; otherwise return the row
unchanged. -/
def clean_row_data (row_data : Row) (error_msg : String) : Row :=
  let cleaned :=
    if containsSub error_msg "invalid input syntax" && containsSub error_msg "type numeric" then
      row_data.map (fun p =>
        match p.2 with
        | .vStr s => (p.1, .vStr (pyStrip (replaceCommas s)))
        | v => (p.1, v))
    else row_data
  if containsSub error_msg "value too long" then
    match reColumnSearch error_msg.data with
    | some col =>
      if (lookupA cleaned col).isSome then
        setVal cleaned col (.vStr (String.mk ((pyStr (rowGet cleaned col)).data.take 255)))
      else cleaned
    | none => cleaned
  else cleaned

/-! ### The per-row retry loop and the full run (load.py:72-263) -/

inductive RowOutcome
  | committed
  | dropped (e : DbError)
  | unexpected (e : DbError)
deriving Repr, DecidableEq

/-- The loader's only outputs besides database writes: its log lines. -/
inductive LogEvent
  | infoRetry (idx : Nat) (attempt : Nat)
  | warnDropped (idx : Nat) (msg : String)
  | errUnexpected (idx : Nat) (msg : String)
deriving Repr, DecidableEq

def max_retries : Nat := 2

/-- load.py:78-263 — `for attempt in range(max_retries + 1)`: try the row;
on `DataError`/`IntegrityError` roll back and retry with cleaned data until
the budget (`budget = max_retries - attempt`) is exhausted, then drop; on
any other exception roll back and give up immediately.  Returns the
connection state, the outcome, the number of attempts made, and the log
lines emitted. -/
def rowAttemptLoop (ops : EngineOps) (df : Dataframe) (mapd : List (String × String))
    (infoMap : List (String × TableInfo)) (table_order : List String)
    (idx : Nat) (row : Row) (budget attemptIdx : Nat) (cleaned : Option Row)
    (db : Db) : Db × RowOutcome × Nat × List LogEvent :=
    match attemptRow ops df mapd infoMap table_order row cleaned db, budget with
    | .ok db', _ => (db', .committed, attemptIdx + 1, [])
    | .error e, 0 =>
      if isRetryable e then
        (db, .dropped e, attemptIdx + 1, [.warnDropped idx (errMsg e)])
      else (db, .unexpected e, attemptIdx + 1, [.errUnexpected idx (errMsg e)])
    | .error e, b + 1 =>
      if isRetryable e then
        let r := rowAttemptLoop ops df mapd infoMap table_order idx row
          b (attemptIdx + 1) (some (clean_row_data (cleaned.getD row) (errMsg e))) db
        (r.1, r.2.1, r.2.2.1, .infoRetry idx (attemptIdx + 1) :: r.2.2.2)
      else (db, .unexpected e, attemptIdx + 1, [.errUnexpected idx (errMsg e)])

def processRow (ops : EngineOps) (df : Dataframe) (mapd : List (String × String))
    (infoMap : List (String × TableInfo)) (table_order : List String)
    (idx : Nat) (row : Row) (db : Db) : Db × RowOutcome × Nat × List LogEvent :=
  rowAttemptLoop ops df mapd infoMap table_order idx row max_retries 0 none db

/-- What a run of `push_data_in_db` leaves behind.  The Python function
itself returns `None`: its only observable effects are the database writes
and the log lines (`outcomes` records each row's fate for the theorems). -/
structure PushResult where
  db : Db
  outcomes : List (Nat × RowOutcome)
  logs : List LogEvent
deriving Repr, DecidableEq

/-- load.py `push_data_in_db(engine, dataframe, table_order, mapping)`. -/
def push_data_in_db (ops : EngineOps) (schemas : List TableSchema)
    (df : Dataframe) (table_order : List String) (mapping : List (String × String))
    (db0 : Db) : PushResult :=
  let infoMap := table_order.map (fun t => (t, buildInfo schemas df.columns mapping t))
  df.rows.enum.foldl
    (fun (acc : PushResult) p =>
      let r := processRow ops df mapping infoMap table_order p.1 p.2 acc.db
      { db := r.1
      , outcomes := acc.outcomes ++ [(p.1, r.2.1)]
      , logs := acc.logs ++ r.2.2.2 })
    { db := db0, outcomes := [], logs := [] }

/-! ### A concrete transactional engine (the external SQL engine of §6 of
the spec): appends rows, assigns auto-increment primary keys, enforces
numeric column types and single-column unique constraints. -/

def digitsToNatAux (acc : Nat) : List Char → Option Nat
  | [] => some acc
  | c :: rest =>
    if c.isDigit then digitsToNatAux (acc * 10 + (c.toNat - '0'.toNat)) rest
    else none

def digitsToNat : List Char → Option Nat
  | [] => none
  | l => digitsToNatAux 0 l

/-- Parse a decimal integer the way a SQL numeric column would accept it. -/
def parseNum (s : String) : Option Int :=
  match s.data with
  | '-' :: rest => (digitsToNat rest).map (fun n => -(n : Int))
  | l => (digitsToNat l).map (fun n => (n : Int))

/-- Type-coerce one cell for a column, raising the engine's
`invalid input syntax ... type numeric` `DataError` on a bad number. -/
def coerceVal (c : Column) (v : Value) : Except DbError Value :=
  match c.ctype, v with
  | _, .vNull => .ok .vNull
  | .num, .vInt n => .ok (.vInt n)
  | .num, .vStr s =>
    match parseNum (pyStrip s) with
    | some n => .ok (.vInt n)
    | none => .error (.dataErr ("invalid input syntax for type numeric: " ++ s))
  | .str, w => .ok w

def coerceRow (t : TableSchema) (row : Row) : Except DbError Row :=
  row.foldlM
    (fun (acc : Row) p =>
      match t.columns.find? (fun c => decide (c.name = p.1)) with
      | none => .error (.otherErr ("no such column: " ++ p.1))
      | some c => do
        let v ← coerceVal c p.2
        pure (acc ++ [(p.1, v)])) []

/-- Replace the rows bound to table `t`. -/
def setTable (db : Db) (t : String) (rows : List Row) : Db :=
  if (lookupA db t).isSome then
    db.map (fun p => if p.1 = t then (t, rows) else p)
  else db ++ [(t, rows)]

def tableRows (db : Db) (t : String) : List Row :=
  (lookupA db t).getD []

/-- The concrete engine's insert: coerce values, assign the auto-increment
primary key, reject duplicates on primary-key/unique columns, append. -/
def realInsert (schemas : List TableSchema) (db : Db) (t : String) (row : Row) :
    Except DbError (Db × Option Value) := do
  match findTable schemas t with
  | none => .error (.otherErr ("no such table: " ++ t))
  | some ts => do
    let row ← coerceRow ts row
    let existing := tableRows db t
    -- auto-increment primary key assignment
    let row := ts.columns.foldl
      (fun (r : Row) c =>
        if c.autoincrement && c.primary_key && !(lookupA r c.name).isSome then
          r ++ [(c.name, .vInt ((existing.length : Int) + 1))]
        else r) row
    -- unique / primary-key constraint enforcement
    let bad := ts.columns.any (fun c =>
      (c.unique || c.primary_key) &&
      (match rowGet row c.name with
       | .vNull => false
       | v => existing.any (fun r => decide (rowGet r c.name = v))))
    if bad then
      .error (.integrityErr ("duplicate key value violates unique constraint on " ++ t))
    else
      let pk := ts.columns.find? (fun c => c.primary_key)
      .ok (setTable db t (existing ++ [row]),
        pk.map (fun c => rowGet row c.name))

def realSelect (db : Db) (t : String) (col : String) (v : Value) :
    Except DbError (Option Row) :=
  .ok ((tableRows db t).find? (fun r => decide (rowGet r col = v)))

def realEngine (schemas : List TableSchema) : EngineOps :=
  { insertRow := realInsert schemas
  , selectOne := realSelect }

/-! ### Generic facts about the retry loop and the run -/

theorem rowAttemptLoop_ok (ops : EngineOps) (df : Dataframe) (mapd : List (String × String))
    (infoMap : List (String × TableInfo)) (table_order : List String)
    (idx : Nat) (row : Row) (budget attemptIdx : Nat) (cleaned : Option Row)
    (db db' : Db) (h : attemptRow ops df mapd infoMap table_order row cleaned db = .ok db') :
    rowAttemptLoop ops df mapd infoMap table_order idx row budget attemptIdx cleaned db
      = (db', .committed, attemptIdx + 1, []) := by
  cases budget <;> (rw [rowAttemptLoop.eq_def, h])

theorem rowAttemptLoop_unexpected (ops : EngineOps) (df : Dataframe)
    (mapd : List (String × String)) (infoMap : List (String × TableInfo))
    (table_order : List String) (idx : Nat) (row : Row) (budget attemptIdx : Nat)
    (cleaned : Option Row) (db : Db) (e : DbError)
    (h : attemptRow ops df mapd infoMap table_order row cleaned db = .error e)
    (hr : isRetryable e = false) :
    rowAttemptLoop ops df mapd infoMap table_order idx row budget attemptIdx cleaned db
      = (db, .unexpected e, attemptIdx + 1, [.errUnexpected idx (errMsg e)]) := by
  cases budget <;> (rw [rowAttemptLoop.eq_def, h] ; simp [hr])

theorem rowAttemptLoop_drop (ops : EngineOps) (df : Dataframe)
    (mapd : List (String × String)) (infoMap : List (String × TableInfo))
    (table_order : List String) (idx : Nat) (row : Row) (attemptIdx : Nat)
    (cleaned : Option Row) (db : Db) (e : DbError)
    (h : attemptRow ops df mapd infoMap table_order row cleaned db = .error e)
    (hr : isRetryable e = true) :
    rowAttemptLoop ops df mapd infoMap table_order idx row 0 attemptIdx cleaned db
      = (db, .dropped e, attemptIdx + 1, [.warnDropped idx (errMsg e)]) := by
  rw [rowAttemptLoop.eq_def, h]
  simp [hr]

theorem rowAttemptLoop_retry (ops : EngineOps) (df : Dataframe)
    (mapd : List (String × String)) (infoMap : List (String × TableInfo))
    (table_order : List String) (idx : Nat) (row : Row) (b attemptIdx : Nat)
    (cleaned : Option Row) (db : Db) (e : DbError)
    (h : attemptRow ops df mapd infoMap table_order row cleaned db = .error e)
    (hr : isRetryable e = true) :
    rowAttemptLoop ops df mapd infoMap table_order idx row (b + 1) attemptIdx cleaned db
      = ((rowAttemptLoop ops df mapd infoMap table_order idx row
            b (attemptIdx + 1) (some (clean_row_data (cleaned.getD row) (errMsg e))) db).1,
         (rowAttemptLoop ops df mapd infoMap table_order idx row
            b (attemptIdx + 1) (some (clean_row_data (cleaned.getD row) (errMsg e))) db).2.1,
         (rowAttemptLoop ops df mapd infoMap table_order idx row
            b (attemptIdx + 1) (some (clean_row_data (cleaned.getD row) (errMsg e))) db).2.2.1,
         .infoRetry idx (attemptIdx + 1) ::
           (rowAttemptLoop ops df mapd infoMap table_order idx row
             b (attemptIdx + 1) (some (clean_row_data (cleaned.getD row) (errMsg e))) db).2.2.2) := by
  rw [rowAttemptLoop.eq_def, h]
  simp [hr]

/-- The retry loop either commits a full successful attempt or leaves the
connection state exactly as it was (every handler rolls the transaction
back before the loop moves on). -/
theorem rowAttemptLoop_state (ops : EngineOps) (df : Dataframe) (mapd : List (String × String))
    (infoMap : List (String × TableInfo)) (table_order : List String)
    (idx : Nat) (row : Row) :
    ∀ (budget attemptIdx : Nat) (cleaned : Option Row) (db : Db),
      (((rowAttemptLoop ops df mapd infoMap table_order idx row budget attemptIdx cleaned db).2.1
          ≠ .committed) →
        (rowAttemptLoop ops df mapd infoMap table_order idx row budget attemptIdx cleaned db).1 = db) ∧
      ((rowAttemptLoop ops df mapd infoMap table_order idx row budget attemptIdx cleaned db).2.1
          = .committed →
        ∃ cl, attemptRow ops df mapd infoMap table_order row cl db =
          .ok (rowAttemptLoop ops df mapd infoMap table_order idx row budget attemptIdx cleaned db).1) := by
  intro budget
  induction budget with
  | zero =>
    intro attemptIdx cleaned db
    cases h : attemptRow ops df mapd infoMap table_order row cleaned db with
    | ok db' =>
      rw [rowAttemptLoop_ok ops df mapd infoMap table_order idx row 0 attemptIdx cleaned db db' h]
      exact ⟨fun hc => absurd rfl hc, fun _ => ⟨cleaned, h⟩⟩
    | error e =>
      by_cases hr : isRetryable e
      · rw [rowAttemptLoop_drop ops df mapd infoMap table_order idx row attemptIdx cleaned db e h hr]
        exact ⟨fun _ => rfl, fun hc => by simp at hc⟩
      · rw [rowAttemptLoop_unexpected ops df mapd infoMap table_order idx row 0 attemptIdx cleaned db e h
          (by simpa using hr)]
        exact ⟨fun _ => rfl, fun hc => by simp at hc⟩
  | succ b ih =>
    intro attemptIdx cleaned db
    cases h : attemptRow ops df mapd infoMap table_order row cleaned db with
    | ok db' =>
      rw [rowAttemptLoop_ok ops df mapd infoMap table_order idx row (b + 1) attemptIdx cleaned db db' h]
      exact ⟨fun hc => absurd rfl hc, fun _ => ⟨cleaned, h⟩⟩
    | error e =>
      by_cases hr : isRetryable e
      · rw [rowAttemptLoop_retry ops df mapd infoMap table_order idx row b attemptIdx cleaned db e h hr]
        obtain ⟨ih1, ih2⟩ := ih (attemptIdx + 1)
          (some (clean_row_data (cleaned.getD row) (errMsg e))) db
        exact ⟨fun _ => ih1 (by assumption), fun hc => ih2 hc⟩
      · rw [rowAttemptLoop_unexpected ops df mapd infoMap table_order idx row (b + 1) attemptIdx cleaned db e h
          (by simpa using hr)]
        exact ⟨fun _ => rfl, fun hc => by simp at hc⟩

theorem rowAttemptLoop_attempts (ops : EngineOps) (df : Dataframe) (mapd : List (String × String))
    (infoMap : List (String × TableInfo)) (table_order : List String)
    (idx : Nat) (row : Row) :
    ∀ (budget attemptIdx : Nat) (cleaned : Option Row) (db : Db),
      (rowAttemptLoop ops df mapd infoMap table_order idx row budget attemptIdx cleaned db).2.2.1
        ≤ attemptIdx + budget + 1 := by
  intro budget
  induction budget with
  | zero =>
    intro attemptIdx cleaned db
    cases h : attemptRow ops df mapd infoMap table_order row cleaned db with
    | ok db' =>
      rw [rowAttemptLoop_ok ops df mapd infoMap table_order idx row 0 attemptIdx cleaned db db' h]
    | error e =>
      by_cases hr : isRetryable e
      · rw [rowAttemptLoop_drop ops df mapd infoMap table_order idx row attemptIdx cleaned db e h hr]
      · rw [rowAttemptLoop_unexpected ops df mapd infoMap table_order idx row 0 attemptIdx cleaned db e h
          (by simpa using hr)]
  | succ b ih =>
    intro attemptIdx cleaned db
    cases h : attemptRow ops df mapd infoMap table_order row cleaned db with
    | ok db' =>
      rw [rowAttemptLoop_ok ops df mapd infoMap table_order idx row (b + 1) attemptIdx cleaned db db' h]
      show attemptIdx + 1 ≤ attemptIdx + (b + 1) + 1
      omega
    | error e =>
      by_cases hr : isRetryable e
      · rw [rowAttemptLoop_retry ops df mapd infoMap table_order idx row b attemptIdx cleaned db e h hr]
        have := ih (attemptIdx + 1) (some (clean_row_data (cleaned.getD row) (errMsg e))) db
        show (rowAttemptLoop ops df mapd infoMap table_order idx row
          b (attemptIdx + 1) (some (clean_row_data (cleaned.getD row) (errMsg e))) db).2.2.1
          ≤ attemptIdx + (b + 1) + 1
        omega
      · rw [rowAttemptLoop_unexpected ops df mapd infoMap table_order idx row (b + 1) attemptIdx cleaned db e h
          (by simpa using hr)]
        show attemptIdx + 1 ≤ attemptIdx + (b + 1) + 1
        omega

theorem rowAttemptLoop_dropped_attempts (ops : EngineOps) (df : Dataframe)
    (mapd : List (String × String)) (infoMap : List (String × TableInfo))
    (table_order : List String) (idx : Nat) (row : Row) :
    ∀ (budget attemptIdx : Nat) (cleaned : Option Row) (db : Db) (e : DbError),
      (rowAttemptLoop ops df mapd infoMap table_order idx row budget attemptIdx cleaned db).2.1
        = .dropped e →
      (rowAttemptLoop ops df mapd infoMap table_order idx row budget attemptIdx cleaned db).2.2.1
        = attemptIdx + budget + 1 := by
  intro budget
  induction budget with
  | zero =>
    intro attemptIdx cleaned db e
    cases h : attemptRow ops df mapd infoMap table_order row cleaned db with
    | ok db' =>
      rw [rowAttemptLoop_ok ops df mapd infoMap table_order idx row 0 attemptIdx cleaned db db' h]
      intro hc
      simp at hc
    | error e' =>
      by_cases hr : isRetryable e'
      · rw [rowAttemptLoop_drop ops df mapd infoMap table_order idx row attemptIdx cleaned db e' h hr]
        intro _
        rfl
      · rw [rowAttemptLoop_unexpected ops df mapd infoMap table_order idx row 0 attemptIdx cleaned db e' h
          (by simpa using hr)]
        intro hc
        simp at hc
  | succ b ih =>
    intro attemptIdx cleaned db e
    cases h : attemptRow ops df mapd infoMap table_order row cleaned db with
    | ok db' =>
      rw [rowAttemptLoop_ok ops df mapd infoMap table_order idx row (b + 1) attemptIdx cleaned db db' h]
      intro hc
      simp at hc
    | error e' =>
      by_cases hr : isRetryable e'
      · rw [rowAttemptLoop_retry ops df mapd infoMap table_order idx row b attemptIdx cleaned db e' h hr]
        intro hc
        have := ih (attemptIdx + 1) (some (clean_row_data (cleaned.getD row) (errMsg e'))) db e hc
        simp only []
        omega
      · rw [rowAttemptLoop_unexpected ops df mapd infoMap table_order idx row (b + 1) attemptIdx cleaned db e' h
          (by simpa using hr)]
        intro hc
        simp at hc

theorem push_outcomes_length (ops : EngineOps) (schemas : List TableSchema)
    (df : Dataframe) (table_order : List String) (mapping : List (String × String))
    (db0 : Db) :
    (push_data_in_db ops schemas df table_order mapping db0).outcomes.length
      = df.rows.length := by
  rw [push_data_in_db]
  have main : ∀ (l : List (Nat × Row)) (acc : PushResult),
      (l.foldl (fun (acc : PushResult) p =>
        let r := processRow ops df mapping
          (table_order.map (fun t => (t, buildInfo schemas df.columns mapping t)))
          table_order p.1 p.2 acc.db
        { db := r.1
        , outcomes := acc.outcomes ++ [(p.1, r.2.1)]
        , logs := acc.logs ++ r.2.2.2 }) acc).outcomes.length
      = acc.outcomes.length + l.length := by
    intro l
    induction l with
    | nil => intro acc; simp
    | cons p rest ih =>
      intro acc
      rw [List.foldl_cons, ih]
      simp only [List.length_append, List.length_cons]
      simp
      omega
  rw [main]
  simp [List.enum]

/-! ### Demo fixtures: the spec's §8 artists/tracks schema and small engines -/

def artistsT : TableSchema :=
  ⟨"artists", [⟨"artist_id", .num, true, true, false, none⟩,
               ⟨"artist_name", .str, false, false, true, none⟩]⟩

def tracksT : TableSchema :=
  ⟨"tracks", [⟨"track_id", .num, true, true, false, none⟩,
              ⟨"artist_id", .num, false, false, false, some ("artists", "artist_id")⟩,
              ⟨"track_name", .str, false, false, false, none⟩]⟩

def demoDf : Dataframe :=
  ⟨["artist_name", "track_name"],
   [[("artist_name", .vStr "A"), ("track_name", .vStr "T1")],
    [("artist_name", .vStr "A"), ("track_name", .vStr "T2")]]⟩

def demoDf1 : Dataframe :=
  ⟨["artist_name", "track_name"],
   [[("artist_name", .vStr "A"), ("track_name", .vStr "T1")]]⟩

def demoInfoMap : List (String × TableInfo) :=
  ["artists", "tracks"].map
    (fun t => (t, buildInfo [artistsT, tracksT] demoDf.columns [] t))

/-- An engine whose inserts always fail with an `IntegrityError`. -/
def failEngine : EngineOps :=
  { insertRow := fun _ _ _ => .error (.integrityErr "duplicate key")
  , selectOne := fun _ _ _ _ => .ok none }

/-- An engine whose inserts always fail with a non-integrity error. -/
def boomEngine : EngineOps :=
  { insertRow := fun _ _ _ => .error (.otherErr "boom")
  , selectOne := fun _ _ _ _ => .ok none }

def numT : TableSchema := ⟨"nums", [⟨"n", .num, false, false, false, none⟩]⟩

/-! ### Claims C3, C8, C9, C4 — the loader's error handling -/

/-- C3: each source row is processed inside a single transaction spanning
all tables in creation order (`attemptRow` folds `processTable` over
`table_order` and aborts the whole attempt on the first error, which
models every per-table insert of the attempt being rolled back); whenever
the row's outcome is not a commit, the connection state is exactly the
state before the row; when it is a commit, the final state is produced by
one complete successful attempt from the untouched starting state, so no
table ever observes a partially-applied row. -/
theorem claim_C3_row_atomicity :
    ∀ (ops : EngineOps) (df : Dataframe) (mapd : List (String × String))
      (infoMap : List (String × TableInfo)) (table_order : List String)
      (idx : Nat) (row : Row) (db : Db),
      ((processRow ops df mapd infoMap table_order idx row db).2.1 ≠ .committed →
        (processRow ops df mapd infoMap table_order idx row db).1 = db) ∧
      ((processRow ops df mapd infoMap table_order idx row db).2.1 = .committed →
        ∃ cl, attemptRow ops df mapd infoMap table_order row cl db
          = .ok (processRow ops df mapd infoMap table_order idx row db).1) := by
  intro ops df mapd infoMap table_order idx row db
  exact rowAttemptLoop_state ops df mapd infoMap table_order idx row max_retries 0 none db

theorem claim_C3_row_atomicity_witness :
    (processRow failEngine demoDf [] demoInfoMap ["artists", "tracks"] 0
      [("artist_name", .vStr "A"), ("track_name", .vStr "T1")] []).1 = [] :=
  (claim_C3_row_atomicity failEngine demoDf [] demoInfoMap ["artists", "tracks"] 0
    [("artist_name", .vStr "A"), ("track_name", .vStr "T1")] []).1 (by decide)

/-- C8: the retry loop makes at most `max_retries + 1 = 3` attempts per
row; a non-integrity, non-data-type error aborts the row immediately after
its first attempt with no retry; a drop happens only after exactly 3
attempts; a retryable first failure re-runs the full row with the cleaning
policy applied to the row; and the run always proceeds over every source
row regardless of per-row outcomes. -/
theorem claim_C8_retry_policy :
    ∀ (ops : EngineOps) (df : Dataframe) (mapd : List (String × String))
      (infoMap : List (String × TableInfo)) (table_order : List String)
      (idx : Nat) (row : Row) (db : Db),
      ((processRow ops df mapd infoMap table_order idx row db).2.2.1 ≤ max_retries + 1) ∧
      (∀ e, attemptRow ops df mapd infoMap table_order row none db = .error e →
        isRetryable e = false →
        processRow ops df mapd infoMap table_order idx row db
          = (db, .unexpected e, 1, [.errUnexpected idx (errMsg e)])) ∧
      (∀ e, (processRow ops df mapd infoMap table_order idx row db).2.1 = .dropped e →
        (processRow ops df mapd infoMap table_order idx row db).2.2.1 = max_retries + 1) ∧
      (∀ e, attemptRow ops df mapd infoMap table_order row none db = .error e →
        isRetryable e = true →
        processRow ops df mapd infoMap table_order idx row db
          = ((rowAttemptLoop ops df mapd infoMap table_order idx row 1 1
                (some (clean_row_data row (errMsg e))) db).1,
             (rowAttemptLoop ops df mapd infoMap table_order idx row 1 1
                (some (clean_row_data row (errMsg e))) db).2.1,
             (rowAttemptLoop ops df mapd infoMap table_order idx row 1 1
                (some (clean_row_data row (errMsg e))) db).2.2.1,
             .infoRetry idx 1 ::
               (rowAttemptLoop ops df mapd infoMap table_order idx row 1 1
                 (some (clean_row_data row (errMsg e))) db).2.2.2)) ∧
      (∀ (schemas : List TableSchema) (mapping : List (String × String)) (db0 : Db),
        (push_data_in_db ops schemas df table_order mapping db0).outcomes.length
          = df.rows.length) := by
  intro ops df mapd infoMap table_order idx row db
  refine ⟨?_, ?_, ?_, ?_, ?_⟩
  · exact rowAttemptLoop_attempts ops df mapd infoMap table_order idx row max_retries 0 none db
  · intro e h hr
    exact rowAttemptLoop_unexpected ops df mapd infoMap table_order idx row max_retries 0 none db e h hr
  · intro e h
    exact rowAttemptLoop_dropped_attempts ops df mapd infoMap table_order idx row max_retries 0 none db e h
  · intro e h hr
    exact rowAttemptLoop_retry ops df mapd infoMap table_order idx row 1 0 none db e h hr
  · intro schemas mapping db0
    exact push_outcomes_length ops schemas df table_order mapping db0

theorem claim_C8_retry_policy_witness :
    (processRow boomEngine demoDf [] demoInfoMap ["artists", "tracks"] 0
        [("artist_name", .vStr "A"), ("track_name", .vStr "T1")] []
      = ([], .unexpected (.otherErr "boom"), 1, [.errUnexpected 0 "boom"])) ∧
    ((processRow failEngine demoDf [] demoInfoMap ["artists", "tracks"] 0
        [("artist_name", .vStr "A"), ("track_name", .vStr "T1")] []).2.2.1 = max_retries + 1) :=
  ⟨(claim_C8_retry_policy boomEngine demoDf [] demoInfoMap ["artists", "tracks"] 0
      [("artist_name", .vStr "A"), ("track_name", .vStr "T1")] []).2.1
      (.otherErr "boom") rfl (by decide),
   (claim_C8_retry_policy failEngine demoDf [] demoInfoMap ["artists", "tracks"] 0
      [("artist_name", .vStr "A"), ("track_name", .vStr "T1")] []).2.2.1
      (.integrityErr "duplicate key") rfl⟩

/-- C9: `clean_row_data` strips thousands-separator commas and surrounding
whitespace from every string value on a numeric-syntax error; truncates the
named column's (stringified) value to at most 255 characters on a
"value too long" error naming a column present in the mapping; and returns
the mapping unchanged for any other error text.  On the spec's convergence
scenario, a `"1,234"` numeric field cleans to `"1234"` and the retried row
commits through the concrete engine. -/
theorem claim_C9_cleaning_policy :
    (∀ (row : Row) (msg : String),
      containsSub msg "invalid input syntax" = true →
      containsSub msg "type numeric" = true →
      containsSub msg "value too long" = false →
      clean_row_data row msg = row.map (fun p =>
        match p.2 with
        | .vStr s => (p.1, .vStr (pyStrip (replaceCommas s)))
        | v => (p.1, v))) ∧
    (∀ (row : Row) (msg : String) (col : String),
      containsSub msg "value too long" = true →
      (containsSub msg "invalid input syntax" && containsSub msg "type numeric") = false →
      reColumnSearch msg.data = some col →
      (lookupA row col).isSome = true →
      clean_row_data row msg
        = setVal row col (.vStr (String.mk ((pyStr (rowGet row col)).data.take 255))) ∧
      ((pyStr (rowGet row col)).data.take 255).length ≤ 255) ∧
    (∀ (row : Row) (msg : String),
      (containsSub msg "invalid input syntax" && containsSub msg "type numeric") = false →
      containsSub msg "value too long" = false →
      clean_row_data row msg = row) ∧
    (clean_row_data [("price", .vStr " 1,234 ")]
        "invalid input syntax for type numeric: 1,234"
      = [("price", .vStr "1234")]) ∧
    (push_data_in_db (realEngine [numT]) [numT]
        ⟨["n"], [[("n", .vStr "1,234")]]⟩ ["nums"] [] []
      = { db := [("nums", [[("n", .vInt 1234)]])]
        , outcomes := [(0, .committed)]
        , logs := [.infoRetry 0 1] }) := by
  refine ⟨?_, ?_, ?_, by decide, by decide⟩
  · intro row msg h1 h2 h3
    simp [clean_row_data, h1, h2, h3]
  · intro row msg col h1 hn hcol hpresent
    refine ⟨?_, ?_⟩
    · simp [clean_row_data, h1, hn, hcol, hpresent]
    · rw [List.length_take]
      exact Nat.min_le_left _ _
  · intro row msg hn h2
    simp [clean_row_data, hn, h2]

theorem claim_C9_cleaning_policy_witness :
    clean_row_data [("price", .vStr " 1,234 ")] "invalid input syntax for type numeric: 1,234"
      = ([("price", Value.vStr " 1,234 ")]).map (fun p =>
        match p.2 with
        | .vStr s => (p.1, .vStr (pyStrip (replaceCommas s)))
        | v => (p.1, v)) :=
  claim_C9_cleaning_policy.1 [("price", .vStr " 1,234 ")]
    "invalid input syntax for type numeric: 1,234" (by decide) (by decide) (by decide)

/-- C4 (code bug): `push_data_in_db` emits no per-table statistics.  Its
observable outputs are only the database writes and aggregate per-row log
lines; on a run whose single row is dropped after touching a two-table
creation order, the entire output contains one row-level
"Dropped row 0" warning and no per-table attempted/dropped counters or
error samples — yet app.py:200-225 and benchmarking iterate a per-table
stats dict they expect `push_data_in_db` to return, while load.py:263
returns `None`. -/
theorem claim_C4_no_per_table_stats :
    (push_data_in_db failEngine [artistsT, tracksT] demoDf1 ["artists", "tracks"] [] []
      = { db := []
        , outcomes := [(0, .dropped (.integrityErr "duplicate key"))]
        , logs := [.infoRetry 0 1, .infoRetry 0 2, .warnDropped 0 "duplicate key"] }) ∧
    ((push_data_in_db failEngine [artistsT, tracksT] demoDf1 ["artists", "tracks"] [] []).logs.countP
        (fun l => match l with | .warnDropped _ _ => true | _ => false) = 1) := by
  exact ⟨by decide, by decide⟩

/-! ### Claim C2 — natural-key uniqueness through the loader's
lookup-or-insert and the engine's unique constraints -/

/-- Splitting a successful bind in the `Except` monad. -/
theorem bind_ok_iff {ε α β : Type} (x : Except ε α) (f : α → Except ε β) (b : β) :
    (x >>= f = .ok b) ↔ ∃ a, x = .ok a ∧ f a = .ok b := by
  cases x with
  | error e => simp [Bind.bind, Except.bind]
  | ok a => simp [Bind.bind, Except.bind]

/-- At most one stored row per non-null value of every unique or
primary-key column of every schema table. -/
def UniqueOK (schemas : List TableSchema) (db : Db) : Prop :=
  ∀ t ts, findTable schemas t = some ts →
    ∀ c ∈ ts.columns, (c.unique || c.primary_key) = true →
      ∀ v : Value, v ≠ .vNull →
        (tableRows db t).countP (fun r => decide (rowGet r c.name = v)) ≤ 1

/-- Engine property: every successful insert preserves `P` (the select
operation returns no state, so it cannot break any state property). -/
def InsertPreserves (P : Db → Prop) (ops : EngineOps) : Prop :=
  ∀ db t row db' pk, P db → ops.insertRow db t row = .ok (db', pk) → P db'

theorem lookupA_mapSet {α : Type} (db : List (String × α)) (t : String) (l : α) (t0 : String) :
    lookupA (db.map (fun p => if p.1 = t then (t, l) else p)) t0
      = if t0 = t then (if (lookupA db t).isSome then some l else none)
        else lookupA db t0 := by
  induction db with
  | nil => simp [lookupA]
  | cons p rest ih =>
    obtain ⟨pk, pv⟩ := p
    by_cases hp : pk = t
    · subst hp
      by_cases h0 : t0 = pk
      · simp [lookupA_cons, h0]
      · simp [lookupA_cons, h0, show ¬ pk = t0 from fun hh => h0 hh.symm, ih]
    · by_cases hpk0 : pk = t0
      · simp [lookupA_cons, hp, hpk0, show ¬ t0 = t from fun hh => hp (hpk0.trans hh)]
      · simp [lookupA_cons, hp, hpk0, ih]

theorem lookupA_append {α : Type} (l1 l2 : List (String × α)) (k : String) :
    lookupA (l1 ++ l2) k = match lookupA l1 k with
      | some v => some v
      | none => lookupA l2 k := by
  induction l1 with
  | nil => simp [lookupA]
  | cons p rest ih =>
    obtain ⟨pk, pv⟩ := p
    by_cases hk : pk = k
    · simp [lookupA_cons, hk]
    · simp only [List.cons_append, lookupA_cons, if_neg hk]
      exact ih

theorem lookupA_setTable (db : Db) (t : String) (l : List Row) (t0 : String) :
    lookupA (setTable db t l) t0 = if t0 = t then some l else lookupA db t0 := by
  unfold setTable
  by_cases hs : (lookupA db t).isSome
  · rw [if_pos hs, lookupA_mapSet, if_pos hs]
  · rw [if_neg hs, lookupA_append]
    by_cases h0 : t0 = t
    · have hn : lookupA db t0 = none := by
        rw [h0]
        cases hl : lookupA db t with
        | none => rfl
        | some v => rw [hl] at hs; simp at hs
      rw [if_pos h0, hn]
      simp [lookupA_cons, lookupA, h0]
    · rw [if_neg h0]
      cases hl : lookupA db t0 with
      | some v => rfl
      | none =>
        simp [lookupA_cons, lookupA, show ¬ t = t0 from fun hh => h0 hh.symm]

theorem tableRows_setTable_self (db : Db) (t : String) (l : List Row) :
    tableRows (setTable db t l) t = l := by
  unfold tableRows
  rw [lookupA_setTable, if_pos rfl]
  rfl

theorem tableRows_setTable_ne (db : Db) (t : String) (l : List Row) (t0 : String)
    (h : t0 ≠ t) : tableRows (setTable db t l) t0 = tableRows db t0 := by
  unfold tableRows
  rw [lookupA_setTable, if_neg h]

/-- Appending a row that collides with no stored row on any unique or
primary-key column keeps `UniqueOK`. -/
theorem UniqueOK_insert (schemas : List TableSchema) (db : Db) (t : String)
    (ts : TableSchema) (hft : findTable schemas t = some ts) (r : Row)
    (hdb : UniqueOK schemas db)
    (hok : (ts.columns.any (fun c =>
        (c.unique || c.primary_key) &&
        (match rowGet r c.name with
         | .vNull => false
         | v => (tableRows db t).any (fun rr => decide (rowGet rr c.name = v))))) = false) :
    UniqueOK schemas (setTable db t (tableRows db t ++ [r])) := by
  intro t0 ts0 hft0 c hc hcu v hv
  by_cases ht0 : t0 = t
  · subst ht0
    rw [hft0] at hft
    injection hft with hts
    subst hts
    rw [tableRows_setTable_self, List.countP_append]
    have hc0 := List.any_eq_false.mp hok c hc
    rw [hcu, Bool.true_and] at hc0
    have hc' := eq_false_of_ne_true hc0
    by_cases hrv : rowGet r c.name = v
    · rw [hrv] at hc'
      have hany : (tableRows db t0).any (fun rr => decide (rowGet rr c.name = v)) = false := by
        cases v with
        | vNull => exact absurd rfl hv
        | vInt n => exact hc'
        | vStr s => exact hc'
      have h0 : (tableRows db t0).countP (fun rr => decide (rowGet rr c.name = v)) = 0 := by
        rw [List.countP_eq_zero]
        intro a ha
        simpa using List.any_eq_false.mp hany a ha
      have h1 : ([r]).countP (fun rr => decide (rowGet rr c.name = v)) ≤ 1 := by
        simpa using List.countP_le_length (l := [r])
          (p := fun rr => decide (rowGet rr c.name = v))
      omega
    · have h1 : ([r]).countP (fun rr => decide (rowGet rr c.name = v)) = 0 := by
        simp [List.countP_cons, hrv]
      have h2 := hdb t0 ts0 hft0 c hc hcu v hv
      omega
  · rw [tableRows_setTable_ne _ _ _ _ ht0]
    exact hdb t0 ts0 hft0 c hc hcu v hv

/-- The concrete engine's constraint checking preserves natural-key
uniqueness across every successful insert. -/
theorem realEngine_preserves_UniqueOK (schemas : List TableSchema) :
    InsertPreserves (UniqueOK schemas) (realEngine schemas) := by
  intro db t row db' pk hdb h
  have h' : realInsert schemas db t row = .ok (db', pk) := h
  unfold realInsert at h'
  cases hft : findTable schemas t with
  | none =>
    rw [hft] at h'
    exact absurd h' (by simp)
  | some ts =>
    rw [hft] at h'
    simp only [bind_ok_iff] at h'
    obtain ⟨r1, hr1, h'⟩ := h'
    split at h'
    · exact absurd h' (by simp)
    next hbad =>
      have hbad' := eq_false_of_ne_true hbad
      injection h' with h1
      rw [Prod.mk.injEq] at h1
      obtain ⟨h1, _⟩ := h1
      subst h1
      exact UniqueOK_insert schemas db t ts hft _ hdb hbad'

/-- Parent lookup-or-insert can change the working state only through a
successful insert, so it preserves every insert-invariant. -/
theorem pres_parentLookupOrInsert (P : Db → Prop) (ops : EngineOps)
    (hP : InsertPreserves P ops) (mapd : List (String × String)) (row : Row)
    (cleaned : Option Row) (pinfo : TableInfo) (pt : String) (mcol : Column)
    (fval : Value) (db : Db) (pd : Value × Db)
    (h : parentLookupOrInsert ops mapd row cleaned pinfo pt mcol fval db = .ok pd)
    (hdb : P db) : P pd.2 := by
  unfold parentLookupOrInsert at h
  simp only [bind_ok_iff] at h
  obtain ⟨ex, hex, h⟩ := h
  cases ex with
  | some prow =>
    cases hpk : pinfo.pk_cols with
    | nil =>
      rw [hpk] at h
      simp only [pure, Except.pure, Except.ok.injEq] at h
      rw [← h]
      exact hdb
    | cons a tl =>
      cases tl with
      | nil =>
        rw [hpk] at h
        simp only [bind_ok_iff, pure, Except.pure] at h
        obtain ⟨v, hvv, h⟩ := h
        simp only [Except.ok.injEq] at h
        rw [← h]
        exact hdb
      | cons b tl2 =>
        rw [hpk] at h
        simp only [pure, Except.pure, Except.ok.injEq] at h
        rw [← h]
        exact hdb
  | none =>
    simp only [bind_ok_iff] at h
    obtain ⟨pidata, hpidata, h⟩ := h
    obtain ⟨q, hins, h⟩ := h
    have hPq : P q.1 := hP db pt pidata q.1 q.2 hdb hins
    cases hipk : q.2 with
    | some v =>
      rw [hipk] at h
      simp only [pure, Except.pure, Except.ok.injEq] at h
      rw [← h]
      exact hPq
    | none =>
      rw [hipk] at h
      simp only [pure, Except.pure, Except.ok.injEq] at h
      rw [← h]
      exact hPq

/-- Foreign-key resolution can change the working state only through a
successful insert, so it preserves every insert-invariant. -/
theorem pres_resolveFk (P : Db → Prop) (ops : EngineOps) (hP : InsertPreserves P ops)
    (df : Dataframe) (mapd : List (String × String)) (infoMap : List (String × TableInfo))
    (row : Row) (cleaned : Option Row) (col : Column) (pt ppc : String)
    (st st' : Row × Db) (h : resolveFk ops df mapd infoMap row cleaned col pt ppc st = .ok st')
    (hdb : P st.2) : P st'.2 := by
  unfold resolveFk at h
  simp only [bind_ok_iff] at h
  obtain ⟨cur, hcur, h⟩ := h
  by_cases hc0 : cur ≠ Value.vNull
  · rw [if_pos hc0] at h
    simp only [Except.ok.injEq] at h
    subst h
    exact hdb
  · rw [if_neg hc0] at h
    simp only [bind_ok_iff] at h
    obtain ⟨pinfo, hpinfo, h⟩ := h
    obtain ⟨s1, hs1, h⟩ := h
    obtain ⟨s2, hs2, h⟩ := h
    obtain ⟨v2, oc2⟩ := s2
    cases oc2 with
    | none =>
      simp only [Except.ok.injEq] at h
      subst h
      exact hdb
    | some mcol =>
      dsimp only at h
      by_cases hf : v2 ≠ Value.vNull
      · rw [if_pos hf] at h
        simp only [bind_ok_iff] at h
        obtain ⟨pd, hpd, h⟩ := h
        have hP2 : P pd.2 :=
          pres_parentLookupOrInsert P ops hP mapd row cleaned pinfo pt mcol v2 st.2 pd hpd hdb
        by_cases hppk : pd.1 ≠ Value.vNull
        · rw [if_pos hppk] at h
          simp only [Except.ok.injEq] at h
          rw [← h]
          exact hP2
        · rw [if_neg hppk] at h
          simp only [Except.ok.injEq] at h
          rw [← h]
          exact hP2
      · rw [if_neg hf] at h
        simp only [Except.ok.injEq] at h
        subst h
        exact hdb

/-- Insert-invariants are preserved along every successful `foldlM`. -/
theorem pres_foldlM {σ ι : Type} (P : σ → Prop) (f : σ → ι → Except DbError σ)
    (hf : ∀ s t s', f s t = .ok s' → P s → P s') :
    ∀ (l : List ι) (s s' : σ), l.foldlM f s = .ok s' → P s → P s' := by
  intro l
  induction l with
  | nil =>
    intro s s' h hs
    simp only [List.foldlM_nil, pure, Except.pure, Except.ok.injEq] at h
    rw [← h]
    exact hs
  | cons c rest ih =>
    intro s s' h hs
    rw [List.foldlM_cons] at h
    simp only [bind_ok_iff] at h
    obtain ⟨s1, h1, h⟩ := h
    exact ih s1 s' h (hf s c s1 h1 hs)

/-- The child's own lookup-or-insert preserves every insert-invariant. -/
theorem pres_childLookupOrInsert (P : Db → Prop) (ops : EngineOps)
    (hP : InsertPreserves P ops) (tbl_name : String) (ins : Row)
    (m : Option String × Value) (db db' : Db)
    (h : childLookupOrInsert ops tbl_name ins m db = .ok db') (hdb : P db) : P db' := by
  unfold childLookupOrInsert at h
  obtain ⟨mo, mv⟩ := m
  cases mo with
  | none =>
    simp only [bind_ok_iff] at h
    obtain ⟨p, hins, h⟩ := h
    simp only [Except.ok.injEq] at h
    rw [← h]
    exact hP db tbl_name ins p.1 p.2 hdb hins
  | some mb =>
    dsimp only at h
    by_cases hmv : mv ≠ Value.vNull
    · rw [if_pos hmv] at h
      simp only [bind_ok_iff] at h
      obtain ⟨ex, hex, h⟩ := h
      cases ex with
      | some r0 =>
        simp only [Except.ok.injEq] at h
        rw [← h]
        exact hdb
      | none =>
        simp only [bind_ok_iff] at h
        obtain ⟨p, hins, h⟩ := h
        simp only [Except.ok.injEq] at h
        rw [← h]
        exact hP db tbl_name ins p.1 p.2 hdb hins
    · rw [if_neg hmv] at h
      simp only [bind_ok_iff] at h
      obtain ⟨p, hins, h⟩ := h
      simp only [Except.ok.injEq] at h
      rw [← h]
      exact hP db tbl_name ins p.1 p.2 hdb hins

/-- Processing one table preserves every insert-invariant of the engine. -/
theorem pres_processTable (P : Db → Prop) (ops : EngineOps) (hP : InsertPreserves P ops)
    (df : Dataframe) (mapd : List (String × String)) (infoMap : List (String × TableInfo))
    (row : Row) (cleaned : Option Row) (db : Db) (tbl_name : String) (db' : Db)
    (h : processTable ops df mapd infoMap row cleaned db tbl_name = .ok db')
    (hdb : P db) : P db' := by
  unfold processTable at h
  simp only [bind_ok_iff] at h
  obtain ⟨info, hinfo, h⟩ := h
  obtain ⟨ins0, hins0, h⟩ := h
  obtain ⟨st, hst, h⟩ := h
  have hPst : P st.2 := by
    refine pres_foldlM (fun s : Row × Db => P s.2) _ ?_ info.table_obj.columns (ins0, db) st hst hdb
    intro s col s' hcol hs
    cases hfk : col.fkParent with
    | none =>
      rw [hfk] at hcol
      simp only [Except.ok.injEq] at hcol
      rw [← hcol]
      exact hs
    | some pq =>
      obtain ⟨pt2, ppc2⟩ := pq
      rw [hfk] at hcol
      exact pres_resolveFk P ops hP df mapd infoMap row cleaned col pt2 ppc2 s s' hcol hs
  obtain ⟨m, hm, h⟩ := h
  exact pres_childLookupOrInsert P ops hP tbl_name st.1 m st.2 db' h hPst

/-- One full row attempt preserves every insert-invariant. -/
theorem pres_attemptRow (P : Db → Prop) (ops : EngineOps) (hP : InsertPreserves P ops)
    (df : Dataframe) (mapd : List (String × String)) (infoMap : List (String × TableInfo))
    (table_order : List String) (row : Row) (cleaned : Option Row) (db db' : Db)
    (h : attemptRow ops df mapd infoMap table_order row cleaned db = .ok db')
    (hdb : P db) : P db' := by
  refine pres_foldlM P _ ?_ table_order db db' h hdb
  intro s t s' hs hps
  exact pres_processTable P ops hP df mapd infoMap row cleaned s t s' hs hps

/-- The whole retry loop for one row preserves every insert-invariant
(failed attempts leave the state untouched; a commit is one successful
attempt). -/
theorem pres_processRow (P : Db → Prop) (ops : EngineOps) (hP : InsertPreserves P ops)
    (df : Dataframe) (mapd : List (String × String)) (infoMap : List (String × TableInfo))
    (table_order : List String) (idx : Nat) (row : Row) (db : Db) (hdb : P db) :
    P (processRow ops df mapd infoMap table_order idx row db).1 := by
  have hst := rowAttemptLoop_state ops df mapd infoMap table_order idx row max_retries 0 none db
  by_cases hc : (processRow ops df mapd infoMap table_order idx row db).2.1
      = RowOutcome.committed
  · obtain ⟨cl, hcl⟩ := hst.2 hc
    exact pres_attemptRow P ops hP df mapd infoMap table_order row cl db _ hcl hdb
  · have h1 : (processRow ops df mapd infoMap table_order idx row db).1 = db := hst.1 hc
    rw [h1]
    exact hdb

/-- The full run preserves every insert-invariant of its engine. -/
theorem pres_push (P : Db → Prop) (ops : EngineOps) (hP : InsertPreserves P ops)
    (schemas : List TableSchema) (df : Dataframe) (table_order : List String)
    (mapping : List (String × String)) (db0 : Db) (hdb : P db0) :
    P (push_data_in_db ops schemas df table_order mapping db0).db := by
  unfold push_data_in_db
  generalize df.rows.enum = l
  suffices hgen : ∀ (acc : PushResult), P acc.db →
      P (l.foldl (fun (acc : PushResult) p =>
        let r := processRow ops df mapping
          (table_order.map (fun t => (t, buildInfo schemas df.columns mapping t)))
          table_order p.1 p.2 acc.db
        { db := r.1
        , outcomes := acc.outcomes ++ [(p.1, r.2.1)]
        , logs := acc.logs ++ r.2.2.2 }) acc).db by
    exact hgen { db := db0, outcomes := [], logs := [] } hdb
  induction l with
  | nil => intro acc hacc; exact hacc
  | cons p rest ih =>
    intro acc hacc
    rw [List.foldl_cons]
    exact ih _ (pres_processRow P ops hP df mapping _ table_order p.1 p.2 acc.db hacc)

/-- C2: for every run of the loader against the concrete engine, every
table keeps at most one physical row per distinct non-null natural-key
(unique or primary-key column) value — the lookup-or-insert of
load.py:164-241 plus the engine's unique constraints preserve the
invariant from any state that satisfies it.  On the spec's own scenario,
two source rows naming the same artist "A" produce exactly one physical
artists row, and both tracks rows reference the same resolved primary key
`artist_id = 1`. -/
theorem claim_C2_natural_key_idempotence :
    (∀ (schemas : List TableSchema) (df : Dataframe) (table_order : List String)
       (mapping : List (String × String)) (db0 : Db),
      UniqueOK schemas db0 →
      UniqueOK schemas
        (push_data_in_db (realEngine schemas) schemas df table_order mapping db0).db) ∧
    (push_data_in_db (realEngine [artistsT, tracksT]) [artistsT, tracksT] demoDf
        ["artists", "tracks"] [] []
      = { db := [("artists", [[("artist_name", .vStr "A"), ("artist_id", .vInt 1)]]),
                 ("tracks",
                  [[("artist_id", .vInt 1), ("track_name", .vStr "T1"), ("track_id", .vInt 1)],
                   [("artist_id", .vInt 1), ("track_name", .vStr "T2"), ("track_id", .vInt 2)]])]
        , outcomes := [(0, .committed), (1, .committed)]
        , logs := [] }) := by
  constructor
  · intro schemas df table_order mapping db0 h0
    exact pres_push (UniqueOK schemas) (realEngine schemas)
      (realEngine_preserves_UniqueOK schemas) schemas df table_order mapping db0 h0
  · decide

theorem claim_C2_natural_key_idempotence_witness :
    UniqueOK [artistsT, tracksT]
      (push_data_in_db (realEngine [artistsT, tracksT]) [artistsT, tracksT] demoDf
        ["artists", "tracks"] [] []).db :=
  claim_C2_natural_key_idempotence.1 [artistsT, tracksT] demoDf ["artists", "tracks"] [] []
    (by intro t ts hft c hc hcu v hv; simp [tableRows, lookupA])

/-! ### Claim C7 — the schema executor (core.py:73-96) -/

/-- core.py:89-91 — execute each table's DDL in creation order.  A table
missing from `tables` raises an uncaught `KeyError` (outer error); a
`SQLAlchemyError` raised by the engine is caught by core.py:94 (inner
error). -/
def runDdl {σ : Type} (execDdl : σ → String → Except String σ)
    (tables : List (String × String)) : σ → List String → Except String (Except String σ)
  | s, [] => .ok (.ok s)
  | s, t :: rest =>
    match lookupA tables t with
    | none => .error ("KeyError: " ++ t)
    | some q =>
      match execDdl s q with
      | .ok s' => runDdl execDdl tables s' rest
      | .error e => .ok (.error e)

/-- core.py:73-96 — one transaction over all DDL statements: on success
commit and return `(True, None)` with the updated state; on any
`SQLAlchemyError` roll the whole transaction back (the resulting state is
the pre-call state) and return `(False, e)` where `e` is the caught
error. -/
def execute_queries {σ : Type} (execDdl : σ → String → Except String σ)
    (table_order : List String) (tables : List (String × String)) (s : σ) :
    Except String ((Bool × Option String) × σ) :=
  match runDdl execDdl tables s table_order with
  | .error k => .error k
  | .ok (.ok s') => .ok ((true, none), s')
  | .ok (.error e) => .ok ((false, some e), s)

/-- A demo DDL engine over a list of executed statements: the second
table's statement fails with a message that does not name the table. -/
def demoExecDdl : List String → String → Except String (List String) :=
  fun s q =>
    if q = "CREATE TABLE t2 (x WIDGET)" then .error "syntax error at or near WIDGET"
    else .ok (s ++ [q])

/-- C7 counterexample: when the second of two DDL statements fails, the
entire return value of `execute_queries` is `(False, e)` with the rolled-back
state — the failure carries the underlying error message but nothing in it
names the failing table "t2", contrary to the claim that the failure
carries "the name of the table being executed when it failed". -/
theorem claim_C7_counterexample :
    execute_queries demoExecDdl ["t1", "t2"]
        [("t1", "CREATE TABLE t1 (x INT)"), ("t2", "CREATE TABLE t2 (x WIDGET)")] []
      = .ok ((false, some "syntax error at or near WIDGET"), []) ∧
    containsSub "syntax error at or near WIDGET" "t2" = false := by
  exact ⟨rfl, by decide⟩

/-- C7 amended: `execute_queries` runs all DDL statements in creation
order inside one transaction; on success it commits and returns
`(True, None)` with the state produced by the full statement sequence; on
any execution error it rolls the whole transaction back — the returned
state is exactly the pre-call state, so no tables are created — and
returns `(False, e)` carrying the underlying error message but not the
name of the failing table. -/
theorem claim_C7_amended_transactional :
    ∀ {σ : Type} (execDdl : σ → String → Except String σ) (table_order : List String)
      (tables : List (String × String)) (s : σ),
      (∀ (e : Option String) (sr : σ),
        execute_queries execDdl table_order tables s = .ok ((false, e), sr) →
        sr = s ∧ ∃ msg, e = some msg ∧
          runDdl execDdl tables s table_order = .ok (.error msg)) ∧
      (∀ (m : Option String) (sr : σ),
        execute_queries execDdl table_order tables s = .ok ((true, m), sr) →
        m = none ∧ runDdl execDdl tables s table_order = .ok (.ok sr)) := by
  intro σ execDdl table_order tables s
  constructor
  · intro e sr h
    unfold execute_queries at h
    cases hr : runDdl execDdl tables s table_order with
    | error k => rw [hr] at h; exact absurd h (by simp)
    | ok inner =>
      cases inner with
      | ok s' => rw [hr] at h; simp at h
      | error msg =>
        rw [hr] at h
        simp only [Except.ok.injEq, Prod.mk.injEq] at h
        obtain ⟨⟨_, he⟩, hsr⟩ := h
        exact ⟨hsr.symm, msg, he.symm, rfl⟩
  · intro m sr h
    unfold execute_queries at h
    cases hr : runDdl execDdl tables s table_order with
    | error k => rw [hr] at h; exact absurd h (by simp)
    | ok inner =>
      cases inner with
      | error msg => rw [hr] at h; simp at h
      | ok s' =>
        rw [hr] at h
        simp only [Except.ok.injEq, Prod.mk.injEq] at h
        obtain ⟨⟨_, hm⟩, hsr⟩ := h
        exact ⟨hm.symm, by rw [hsr]⟩

theorem claim_C7_amended_transactional_witness :
    (([] : List String) = [] ∧ ∃ msg, (some "syntax error at or near WIDGET" : Option String) = some msg ∧
      runDdl demoExecDdl [("t1", "CREATE TABLE t1 (x INT)"), ("t2", "CREATE TABLE t2 (x WIDGET)")]
        [] ["t1", "t2"] = .ok (.error msg)) :=
  (claim_C7_amended_transactional demoExecDdl ["t1", "t2"]
    [("t1", "CREATE TABLE t1 (x INT)"), ("t2", "CREATE TABLE t2 (x WIDGET)")] []).1
    (some "syntax error at or near WIDGET") [] rfl

end VulcanDB
